import Mathlib

/-!
# Verification of the MPF host event bus (`src/src/event_bus_service.cpp`)

A shallow embedding of `EventBusService`: the topic-pattern compiler
(`compilePattern` / `matchesTopic`), the subscription table
(`subscribe` / `unsubscribe` / `unsubscribeAll`), the dispatcher
(`deliverEvent`, reached through `publish` / `publishSync`), the read
queries (`subscriberCount`, `topicStats`) and the request/response
registry (`registerHandler` / `request`).

Modelling conventions:
* `QString` is `String`; character-level work uses `List Char`.
* `QVariantMap` payloads are association lists `List (String × String)`;
  their contents are never inspected by the bus.
* `QUuid::createUuid` (globally unique ids) is modelled by a fresh-id
  counter `m_nextId`; subscription ids are `Nat`.
* `CrossDllSafety::deepCopy` is the identity on value-semantics data.
* A subscriber callback (`std::function`) is modelled by its observable
  behaviour at invocation time: absent, returns normally, or throws.
  Synchronous delivery records the exact invocation order (the trace of
  side effects) and whether a C++ exception escaped the delivery loop.
  A request handler's outcome additionally distinguishes throwing a
  `std::exception`-derived exception (which the `try`/`catch` in
  `request` intercepts) from throwing any other C++ throwable (which
  that catch clause does not cover, so the fault escapes `request`).
* `std::sort` guarantees only that its output is a permutation of its
  input ordered by the comparator; it is NOT guaranteed stable.  The
  dispatcher is therefore parametrised by the sort routine, constrained
  to that contract (`ValidSort`).
* `QHash`/`QMap` tables are association lists; the subscription table is
  kept in insertion order, which is the scan order the code iterates in.
-/

namespace Mpf

/-! ## Topic matcher: `EventBusService::compilePattern` and the regex engine -/

/-- `QRegularExpression::escape` keeps word characters `[A-Za-z0-9_]`
and prefixes every other character with a backslash. -/
def isWordChar (c : Char) : Bool :=
  ('a' ≤ c && c ≤ 'z') || ('A' ≤ c && c ≤ 'Z') || ('0' ≤ c && c ≤ '9') || c = '_'

/-- `QRegularExpression::escape` on a character list. -/
def escapeChars : List Char → List Char
  | [] => []
  | c :: rest => if isWordChar c then c :: escapeChars rest else '\\' :: c :: escapeChars rest

/-- Worker for `replaceChars`.  Each step consumes at least one subject
character, so a fuel of the subject's length is enough; the fuel only
makes the recursion structural (kernel-reducible) and is never
exhausted on the calls `replaceChars` makes. -/
def replaceAux (tgt repl : List Char) : Nat → List Char → List Char
  | _, [] => []
  | 0, s => s
  | fuel + 1, c :: rest =>
    if tgt ≠ [] ∧ tgt.isPrefixOf (c :: rest) then
      repl ++ replaceAux tgt repl fuel (rest.drop (tgt.length - 1))
    else
      c :: replaceAux tgt repl fuel rest

/-- `QString::replace(before, after)`: replace every non-overlapping
occurrence of `tgt`, scanning left to right. -/
def replaceChars (tgt repl : List Char) (s : List Char) : List Char :=
  replaceAux tgt repl s.length s

/-- The placeholder the code uses to protect `**` tokens:
`"<<DOUBLE_STAR>>"`. -/
def doubleStarPlaceholder : List Char := "<<DOUBLE_STAR>>".toList

/-- The escaped single star `"\*"`. -/
def escapedStar : List Char := ['\\', '*']

/-- The escaped double star `"\*\*"`. -/
def escapedDoubleStar : List Char := ['\\', '*', '\\', '*']

/-- `EventBusService::compilePattern`: escape the pattern, swap the
escaped `**` tokens out to a placeholder, turn every remaining escaped
`*` into `[^/]+`, turn the placeholder into `.+`, and anchor with
`^`…`$`. -/
def compilePattern (pattern : String) : List Char :=
  let r0 := escapeChars pattern.toList
  let r1 := replaceChars escapedDoubleStar doubleStarPlaceholder r0
  let r2 := replaceChars escapedStar "[^/]+".toList r1
  let r3 := replaceChars doubleStarPlaceholder ".+".toList r2
  '^' :: r3 ++ ['$']

/-- Tokens of the regexes `compilePattern` can emit: literals (escaped
or plain word characters), `.+`, `[^/]+`, and a bare `.`. -/
inductive RTok where
  | lit (c : Char)
  | anyPlus
  | nonSlashPlus
  | anyOne
deriving DecidableEq, Repr

/-- Read a compiled regex body into tokens.  `\c` is a literal `c`,
`[^/]+` and `.+` are the wildcard tokens, everything else stands for
itself. -/
def tokenizeRegex : List Char → List RTok
  | [] => []
  | '\\' :: c :: rest => .lit c :: tokenizeRegex rest
  | '[' :: '^' :: '/' :: ']' :: '+' :: rest => .nonSlashPlus :: tokenizeRegex rest
  | '.' :: '+' :: rest => .anyPlus :: tokenizeRegex rest
  | '.' :: rest => .anyOne :: tokenizeRegex rest
  | c :: rest => .lit c :: tokenizeRegex rest

/-- Worker for `matchTokens`.  Every recursive call shrinks
`tokens.length + subject.length`, so the fuel `matchTokens` supplies is
never exhausted; it only makes the recursion structural. -/
def matchAux : Nat → List RTok → List Char → Bool
  | 0, _, _ => false
  | _ + 1, [], [] => true
  | _ + 1, [], _ :: _ => false
  | _ + 1, .lit _ :: _, [] => false
  | fuel + 1, .lit c :: ts, d :: ds => c == d && matchAux fuel ts ds
  | _ + 1, .anyOne :: _, [] => false
  | fuel + 1, .anyOne :: ts, _ :: ds => matchAux fuel ts ds
  | _ + 1, .anyPlus :: _, [] => false
  | fuel + 1, .anyPlus :: ts, _ :: ds =>
    matchAux fuel ts ds || matchAux fuel (.anyPlus :: ts) ds
  | _ + 1, .nonSlashPlus :: _, [] => false
  | fuel + 1, .nonSlashPlus :: ts, d :: ds =>
    if d = '/' then false
    else matchAux fuel ts ds || matchAux fuel (.nonSlashPlus :: ts) ds

/-- PCRE matching semantics of the token list against an entire
subject string (backtracking; `x+` is one-or-more). -/
def matchTokens (tokens : List RTok) (subject : List Char) : Bool :=
  matchAux (tokens.length + subject.length + 1) tokens subject

/-- `QRegularExpression::match(topic).hasMatch()` for a regex produced
by `compilePattern`: such a regex is anchored `^body$`, so a match
anywhere in the subject is exactly a whole-string match of the body. -/
def regexHasMatch (regex : List Char) (subject : List Char) : Bool :=
  match regex with
  | '^' :: rest =>
    match rest.getLast? with
    | some '$' => matchTokens (tokenizeRegex rest.dropLast) subject
    | _ => false
  | _ => false

/-- `EventBusService::matchesTopic`: compile the pattern and test the
topic against it. -/
def matchesTopic (topic : String) (pattern : String) : Bool :=
  regexHasMatch (compilePattern pattern) topic.toList

/-! ### Analysis of the substitution pipeline

`replaceSpec` is the fuel-free form of `replaceChars`; `s1`/`s2`/`s3`
describe the intermediate strings of the pipeline directly by
recursion on the original pattern, and `patternTokens` is the
spec-side tokenizer — written from the spec's words: every escaped
`**` token becomes "one-or-more of any character" BEFORE every
remaining escaped `*` becomes "one-or-more non-`/` characters", all
other characters stand for themselves. -/

/-- `replaceChars` without fuel (well-founded recursion); used for
reasoning, proven equal to `replaceChars`. -/
def replaceSpec (tgt repl : List Char) : List Char → List Char
  | [] => []
  | c :: rest =>
    if tgt ≠ [] ∧ tgt.isPrefixOf (c :: rest) then
      repl ++ replaceSpec tgt repl (rest.drop (tgt.length - 1))
    else
      c :: replaceSpec tgt repl rest
termination_by s => s.length
decreasing_by
  · simp only [List.length_cons]
    have h1 : (rest.drop (tgt.length - 1)).length ≤ rest.length := by
      rw [List.length_drop]; omega
    omega
  · simp [List.length_cons]

/-- What `QRegularExpression::escape` emits for one character. -/
def escBlock (c : Char) : List Char :=
  if isWordChar c then [c] else ['\\', c]

/-- The compiled string after escaping and the `\*\*` → placeholder
substitution, described by recursion on the pattern. -/
def s1 : List Char → List Char
  | [] => []
  | '*' :: '*' :: rest => doubleStarPlaceholder ++ s1 rest
  | '*' :: rest => '\\' :: '*' :: s1 rest
  | c :: rest => escBlock c ++ s1 rest

/-- …additionally after the `\*` → `[^/]+` substitution. -/
def s2 : List Char → List Char
  | [] => []
  | '*' :: '*' :: rest => doubleStarPlaceholder ++ s2 rest
  | '*' :: rest => '[' :: '^' :: '/' :: ']' :: '+' :: s2 rest
  | c :: rest => escBlock c ++ s2 rest

/-- …additionally after the placeholder → `.+` substitution: the final
regex body. -/
def s3 : List Char → List Char
  | [] => []
  | '*' :: '*' :: rest => '.' :: '+' :: s3 rest
  | '*' :: rest => '[' :: '^' :: '/' :: ']' :: '+' :: s3 rest
  | c :: rest => escBlock c ++ s3 rest

/-- The spec-side tokenizer of a topic pattern: `**` is one-or-more of
any character (substituted first), a remaining `*` is one-or-more
non-`/` characters, everything else is a literal. -/
def patternTokens : List Char → List RTok
  | [] => []
  | '*' :: '*' :: rest => .anyPlus :: patternTokens rest
  | '*' :: rest => .nonSlashPlus :: patternTokens rest
  | c :: rest => .lit c :: patternTokens rest

/-! ## Data model -/

/-- Event payloads (`QVariantMap`); never inspected by the bus. -/
abbrev VariantMap := List (String × String)

/-- `mpf::SubscriptionOptions`. -/
structure SubscriptionOptions where
  priority : Int := 0
  receiveOwnEvents : Bool := false
  async : Bool := false
deriving DecidableEq, Repr

/-- Observable behaviour of a subscription's `EventHandler` slot:
no callback was supplied (`nullptr`), the callback returns normally,
or the callback throws a C++ exception when invoked. -/
inductive HandlerModel where
  | noHandler
  | returns
  | throws
deriving DecidableEq, Repr

/-- `mpf::Event`: topic, sender, payload, timestamp. -/
structure Event where
  topic : String
  senderId : String
  data : VariantMap
  timestamp : Int
deriving DecidableEq, Repr

/-- `EventBusService::Subscription`.  `id` models the `QUuid` string
(opaque unique token, here drawn from a fresh-id counter); `regex` is
the compiled pattern stored at subscribe time. -/
structure Subscription where
  id : Nat
  pattern : String
  subscriberId : String
  handler : HandlerModel
  options : SubscriptionOptions
  regex : List Char
deriving DecidableEq, Repr

/-- `mpf::TopicData` (the per-topic stats record behind `m_topicStats`);
fields default-constructed on first access through `operator[]`. -/
structure TopicData where
  topic : String := ""
  eventCount : Nat := 0
  lastEventTime : Int := 0
deriving DecidableEq, Repr

/-- `mpf::TopicStats` as returned by `EventBusService::topicStats`. -/
structure TopicStats where
  topic : String := ""
  subscriberCount : Nat := 0
  eventCount : Nat := 0
  lastEventTime : Int := 0
deriving DecidableEq, Repr

/-- Outcome of invoking a request handler, distinguishing what the
`catch (const std::exception& e)` at the `request` call site can and
cannot intercept: the callback returns a value, throws an exception
derived from `std::exception` (caught there), or throws any other C++
throwable (NOT caught there — it propagates past `request`). -/
inductive HandlerOutcome where
  | ok (v : VariantMap)
  | stdExc (what : String)
  | nonStdThrow
deriving Repr

/-- What a call to `EventBusService::request` does to its caller: an
engaged optional, an empty optional (`std::nullopt`), or an exception
propagating out of `request` uncaught (possible because the
`try`/`catch` covers only `std::exception`). -/
inductive RequestResult where
  | value (v : VariantMap)
  | noValue
  | fault
deriving DecidableEq, Repr

/-- `EventBusService::RequestHandlerEntry`; the handler is the actual
callback, described by its invocation outcome. -/
structure RequestHandlerEntry where
  topic : String
  handlerId : String
  handler : Event → HandlerOutcome

/-- The bus state: the four tables guarded by the service's mutexes,
plus the fresh-id counter standing in for `QUuid::createUuid`.
`m_subscriptions` (a `QHash` keyed by subscription id) is kept in
insertion order, which is the scan order the loops iterate in. -/
structure EventBusState where
  m_subscriptions : List Subscription := []
  m_subscriberIndex : List (String × List Nat) := []
  m_topicStats : List (String × TopicData) := []
  m_requestHandlers : List (String × RequestHandlerEntry) := []
  m_nextId : Nat := 0

/-- The freshly constructed bus. -/
def emptyBus : EventBusState := {}

/-! ## Subscription table -/

/-- `m_subscriberIndex[subscriberId].append(id)`: `operator[]`
default-constructs the list when the key is absent. -/
def indexAppend (idx : List (String × List Nat)) (sid : String) (i : Nat) :
    List (String × List Nat) :=
  match idx with
  | [] => [(sid, [i])]
  | (k, v) :: rest =>
    if k = sid then (k, v ++ [i]) :: rest else (k, v) :: indexAppend rest sid i

/-- The body of `EventBusService::unsubscribe` on the index:
`m_subscriberIndex[subscriberId].removeAll(subscriptionId)` followed by
pruning the entry when its list became empty. -/
def indexRemove (idx : List (String × List Nat)) (sid : String) (i : Nat) :
    List (String × List Nat) :=
  match idx with
  | [] => []
  | (k, v) :: rest =>
    if k = sid then
      let v' := v.filter (fun j => j ≠ i)
      if v'.isEmpty then rest else (k, v') :: rest
    else (k, v) :: indexRemove rest sid i

/-- `EventBusService::subscribe`: build the subscription (fresh id,
compiled regex), insert it into the table and append its id to the
subscriber's index entry; returns the new id. -/
def subscribe (st : EventBusState) (pattern : String) (subscriberId : String)
    (handler : HandlerModel) (options : SubscriptionOptions) :
    Nat × EventBusState :=
  let sub : Subscription :=
    { id := st.m_nextId, pattern := pattern, subscriberId := subscriberId,
      handler := handler, options := options, regex := compilePattern pattern }
  (sub.id,
   { st with
     m_subscriptions := st.m_subscriptions ++ [sub]
     m_subscriberIndex := indexAppend st.m_subscriberIndex subscriberId sub.id
     m_nextId := st.m_nextId + 1 })

/-- `EventBusService::unsubscribe`: erase the table entry if present,
remove the id from the owner's index list, prune an emptied list. -/
def unsubscribe (st : EventBusState) (subscriptionId : Nat) :
    Bool × EventBusState :=
  match st.m_subscriptions.find? (fun s => s.id == subscriptionId) with
  | none => (false, st)
  | some s =>
    (true,
     { st with
       m_subscriptions := st.m_subscriptions.eraseP (fun x => x.id == subscriptionId)
       m_subscriberIndex := indexRemove st.m_subscriberIndex s.subscriberId subscriptionId })

/-- `EventBusService::unsubscribeAll`:
`ids = m_subscriberIndex.take(subscriberId)` then
`m_subscriptions.remove(id)` for each id. -/
def unsubscribeAll (st : EventBusState) (subscriberId : String) :
    List Nat × EventBusState :=
  let ids := ((st.m_subscriberIndex.find? (fun e => e.1 == subscriberId)).map Prod.snd).getD []
  (ids,
   { st with
     m_subscriberIndex := st.m_subscriberIndex.eraseP (fun e => e.1 == subscriberId)
     m_subscriptions := ids.foldl (fun acc i => acc.eraseP (fun s => s.id == i)) st.m_subscriptions })

/-! ## Dispatcher -/

/-- `EventBusService::findMatchingSubscriptions`: scan the table and
keep every subscription whose stored regex matches the topic. -/
def findMatchingSubscriptions (subs : List Subscription) (topic : String) :
    List Subscription :=
  subs.filter (fun s => regexHasMatch s.regex topic.toList)

/-- The stats update at the top of `deliverEvent`:
`m_topicStats[event.topic]` (default-constructing on first access),
then set `topic`, increment `eventCount`, store `lastEventTime`. -/
def bumpStats (stats : List (String × TopicData)) (topic : String) (ts : Int) :
    List (String × TopicData) :=
  match stats with
  | [] => [(topic, { topic := topic, eventCount := 1, lastEventTime := ts })]
  | (k, d) :: rest =>
    if k = topic then
      (k, { topic := topic, eventCount := d.eventCount + 1, lastEventTime := ts }) :: rest
    else (k, d) :: bumpStats rest topic ts

/-- The `std::sort` contract: the output is a permutation of the input,
ordered so that no later element has strictly greater `priority` than
an earlier one (the comparator is `a.priority > b.priority`).
`std::sort` promises nothing more — in particular not stability — so
the dispatcher is verified against every routine meeting this
contract. -/
def ValidSort (f : List Subscription → List Subscription) : Prop :=
  ∀ l : List Subscription,
    (f l).Perm l ∧
    (f l).Pairwise (fun a b => b.options.priority ≤ a.options.priority)

/-- Insert keeping priorities descending, placing the new element after
existing equal priorities: a stable descending insertion sort step. -/
def insertDescStable (x : Subscription) : List Subscription → List Subscription
  | [] => [x]
  | y :: ys =>
    if y.options.priority ≤ x.options.priority then x :: y :: ys
    else y :: insertDescStable x ys

/-- Insert keeping priorities descending, placing the new element
before existing equal priorities: an anti-stable insertion sort step. -/
def insertDescAnti (x : Subscription) : List Subscription → List Subscription
  | [] => [x]
  | y :: ys =>
    if y.options.priority < x.options.priority then x :: y :: ys
    else y :: insertDescAnti x ys

/-- A stable implementation of the `std::sort` call's contract. -/
def sortDescStable (l : List Subscription) : List Subscription :=
  l.foldr insertDescStable []

/-- A conforming but unstable implementation of the `std::sort` call's
contract: equal-priority elements come out in reversed order. -/
def sortDescAnti (l : List Subscription) : List Subscription :=
  l.foldr insertDescAnti []

/-- Result of one `deliverEvent` delivery loop: the `notified` counter,
the trace of subscription ids whose handler was invoked (synchronous)
or scheduled (asynchronous), in order, and whether a handler's C++
exception escaped the loop (possible only synchronously — there is no
try/catch in `deliverEvent`).  When `fault` is true the loop aborted:
`notified` was never returned to the caller and `invoked` ends at the
throwing handler. -/
structure DeliverOut where
  notified : Nat := 0
  invoked : List Nat := []
  fault : Bool := false
  passiveEmitted : Bool := false
deriving DecidableEq, Repr

/-- The `for (const Subscription* sub : matches)` loop of
`deliverEvent`: skip own events when asked, invoke/schedule the
handler, count.  A synchronous handler that throws propagates out of
the loop before `notified++` runs; an asynchronous handler is only
queued, so it cannot fault here. -/
def deliverLoop (senderId : String) (synchronous : Bool) :
    List Subscription → Nat × List Nat × Bool
  | [] => (0, [], false)
  | sub :: rest =>
    if !sub.options.receiveOwnEvents && sub.subscriberId == senderId then
      deliverLoop senderId synchronous rest
    else
      match sub.handler with
      | .noHandler =>
        let (n, inv, f) := deliverLoop senderId synchronous rest
        (n + 1, inv, f)
      | .returns =>
        let (n, inv, f) := deliverLoop senderId synchronous rest
        (n + 1, sub.id :: inv, f)
      | .throws =>
        if synchronous then (0, [sub.id], true)
        else
          let (n, inv, f) := deliverLoop senderId synchronous rest
          (n + 1, sub.id :: inv, f)

/-- `EventBusService::deliverEvent`, parametrised by the `std::sort`
routine: update the topic stats, collect matches, return 0 early when
none matched (skipping the `eventPublished` emission), otherwise sort
by priority descending, run the delivery loop and finally emit (inline)
or queue (async) the passive-listener broadcast — unless a synchronous
handler fault already escaped. -/
def deliverEvent (sortFn : List Subscription → List Subscription)
    (st : EventBusState) (event : Event) (synchronous : Bool) :
    DeliverOut × EventBusState :=
  let st' := { st with m_topicStats := bumpStats st.m_topicStats event.topic event.timestamp }
  let matchList := findMatchingSubscriptions st.m_subscriptions event.topic
  if matchList.isEmpty then
    ({ notified := 0, invoked := [], fault := false, passiveEmitted := false }, st')
  else
    let sorted := sortFn matchList
    let (n, inv, f) := deliverLoop event.senderId synchronous sorted
    ({ notified := n, invoked := inv, fault := f, passiveEmitted := !f }, st')

/-- `EventBusService::publish`: build the event (timestamp supplied by
the ambient clock) and deliver asynchronously. -/
def publish (sortFn : List Subscription → List Subscription)
    (st : EventBusState) (topic : String) (data : VariantMap)
    (senderId : String) (now : Int) : DeliverOut × EventBusState :=
  deliverEvent sortFn st
    { topic := topic, senderId := senderId, data := data, timestamp := now } false

/-- `EventBusService::publishSync`: build the event and deliver
synchronously. -/
def publishSync (sortFn : List Subscription → List Subscription)
    (st : EventBusState) (topic : String) (data : VariantMap)
    (senderId : String) (now : Int) : DeliverOut × EventBusState :=
  deliverEvent sortFn st
    { topic := topic, senderId := senderId, data := data, timestamp := now } true

/-! ## Read queries -/

/-- `EventBusService::subscriberCount`: count the live subscriptions
whose stored regex matches the topic. -/
def subscriberCount (st : EventBusState) (topic : String) : Nat :=
  st.m_subscriptions.countP (fun s => regexHasMatch s.regex topic.toList)

/-- `EventBusService::topicStats`: count matching subscribers live,
then copy `eventCount`/`lastEventTime` from `m_topicStats` if that
exact topic has an entry. -/
def topicStats (st : EventBusState) (topic : String) : TopicStats :=
  let base : TopicStats :=
    { topic := topic
      subscriberCount := st.m_subscriptions.countP (fun s => regexHasMatch s.regex topic.toList) }
  match st.m_topicStats.find? (fun e => e.1 == topic) with
  | none => base
  | some (_, d) => { base with eventCount := d.eventCount, lastEventTime := d.lastEventTime }

/-- `EventBusService::totalSubscribers`. -/
def totalSubscribers (st : EventBusState) : Nat :=
  st.m_subscriptions.length

/-- `EventBusService::subscriptionsFor`. -/
def subscriptionsFor (st : EventBusState) (subscriberId : String) : List Nat :=
  ((st.m_subscriberIndex.find? (fun e => e.1 == subscriberId)).map Prod.snd).getD []

/-! ## Request/response registry -/

/-- `EventBusService::registerHandler`: reject (false, no overwrite)
when the exact topic already has a handler, else insert. -/
def registerHandler (st : EventBusState) (topic : String) (handlerId : String)
    (handler : Event → HandlerOutcome) : Bool × EventBusState :=
  if (st.m_requestHandlers.find? (fun e => e.1 == topic)).isSome then
    (false, st)
  else
    (true,
     { st with
       m_requestHandlers :=
         st.m_requestHandlers ++ [(topic, { topic := topic, handlerId := handlerId, handler := handler })] })

/-- `EventBusService::unregisterHandler`. -/
def unregisterHandler (st : EventBusState) (topic : String) : Bool × EventBusState :=
  if (st.m_requestHandlers.find? (fun e => e.1 == topic)).isSome then
    (true, { st with m_requestHandlers := st.m_requestHandlers.eraseP (fun e => e.1 == topic) })
  else (false, st)

/-- `EventBusService::hasHandler`. -/
def hasHandler (st : EventBusState) (topic : String) : Bool :=
  (st.m_requestHandlers.find? (fun e => e.1 == topic)).isSome

/-- `EventBusService::request`: look the single handler up by exact
topic — absent means `std::nullopt`; present means the handler is
invoked inline on the built event and its value returned.  The
`try`/`catch` around the call catches only `std::exception`-derived
throws (converted to `std::nullopt`); a handler throwing any other
C++ throwable is not caught here and the fault escapes `request` into
the caller.  `timeoutMs` is accepted and unused. -/
def request (st : EventBusState) (topic : String) (data : VariantMap)
    (senderId : String) (timeoutMs : Int) (now : Int) : RequestResult :=
  match st.m_requestHandlers.find? (fun e => e.1 == topic) with
  | none => .noValue
  | some (_, entry) =>
    match entry.handler { topic := topic, senderId := senderId, data := data, timestamp := now } with
    | .ok v => .value v
    | .stdExc _ => .noValue
    | .nonStdThrow => .fault

/-- How `request` reports one handler outcome to its caller. -/
def resultOfOutcome : HandlerOutcome → RequestResult
  | .ok v => .value v
  | .stdExc _ => .noValue
  | .nonStdThrow => .fault

/-! ## Operation sequences (for the table/index invariant) -/

/-- One mutation of the subscription table. -/
inductive BusOp where
  | sub (pattern subscriberId : String) (handler : HandlerModel) (options : SubscriptionOptions)
  | unsub (subscriptionId : Nat)
  | unsubAll (subscriberId : String)

/-- Run one operation for its state effect. -/
def applyOp (st : EventBusState) : BusOp → EventBusState
  | .sub p sid h o => (subscribe st p sid h o).2
  | .unsub i => (unsubscribe st i).2
  | .unsubAll sid => (unsubscribeAll st sid).2

/-- Run a sequence of operations from the empty bus. -/
def applyOps (ops : List BusOp) : EventBusState :=
  ops.foldl applyOp emptyBus

/-- The spec's index/table consistency invariant: every id in the index
is a live subscription, every live subscription is listed in the index
under its own `subscriberId`, and no index entry has an empty id
list. -/
def Consistent (st : EventBusState) : Prop :=
  (∀ e ∈ st.m_subscriberIndex, ∀ i ∈ e.2, ∃ s ∈ st.m_subscriptions, s.id = i) ∧
  (∀ s ∈ st.m_subscriptions, ∃ e ∈ st.m_subscriberIndex, e.1 = s.subscriberId ∧ s.id ∈ e.2) ∧
  (∀ e ∈ st.m_subscriberIndex, e.2 ≠ [])

/-- The strengthened induction invariant behind `Consistent`: id and
key uniqueness, both consistency directions (with ownership), no empty
index entry, and freshness of the id counter. -/
structure WF (st : EventBusState) : Prop where
  nodupIds : (st.m_subscriptions.map Subscription.id).Nodup
  nodupKeys : (st.m_subscriberIndex.map Prod.fst).Nodup
  entriesNonempty : ∀ e ∈ st.m_subscriberIndex, e.2 ≠ []
  idxToTab : ∀ e ∈ st.m_subscriberIndex, ∀ i ∈ e.2,
    ∃ s ∈ st.m_subscriptions, s.id = i ∧ s.subscriberId = e.1
  tabToIdx : ∀ s ∈ st.m_subscriptions, ∃ e ∈ st.m_subscriberIndex, e.1 = s.subscriberId ∧ s.id ∈ e.2
  fresh : ∀ s ∈ st.m_subscriptions, s.id < st.m_nextId

/-! ## Derived notions used by the theorems -/

/-- The self-exclusion test of the delivery loop:
`!sub->options.receiveOwnEvents && sub->subscriberId == event.senderId`. -/
def skipOwn (senderId : String) (s : Subscription) : Bool :=
  !s.options.receiveOwnEvents && s.subscriberId == senderId

/-- The `TopicData` record currently stored for a topic
(default-constructed when the topic has no entry yet). -/
def statsGet (st : EventBusState) (topic : String) : TopicData :=
  ((st.m_topicStats.find? (fun e => e.1 == topic)).map Prod.snd).getD {}

/-! ## Concrete fixtures for the scenario theorems -/

/-- Equal-priority subscription inserted first (id 0, subscriber `A`). -/
def subEqA : Subscription :=
  { id := 0, pattern := "t", subscriberId := "A", handler := .returns,
    options := { priority := 5 }, regex := compilePattern "t" }

/-- Equal-priority subscription inserted second (id 1, subscriber `B`). -/
def subEqB : Subscription :=
  { id := 1, pattern := "t", subscriberId := "B", handler := .returns,
    options := { priority := 5 }, regex := compilePattern "t" }

/-- A bus with two equal-priority subscriptions to the same pattern. -/
def stEqPrio : EventBusState :=
  { m_subscriptions := [subEqA, subEqB]
    m_subscriberIndex := [("A", [0]), ("B", [1])]
    m_nextId := 2 }

/-- Priority-10 subscription (id 0, subscriber `A`). -/
def subHi : Subscription :=
  { id := 0, pattern := "t", subscriberId := "A", handler := .returns,
    options := { priority := 10 }, regex := compilePattern "t" }

/-- Priority-0 subscription (id 1, subscriber `B`). -/
def subLo : Subscription :=
  { id := 1, pattern := "t", subscriberId := "B", handler := .returns,
    options := { priority := 0 }, regex := compilePattern "t" }

/-- A bus with two subscriptions to the same pattern, priorities 10
and 0. -/
def stPrio : EventBusState :=
  { m_subscriptions := [subHi, subLo]
    m_subscriberIndex := [("A", [0]), ("B", [1])]
    m_nextId := 2 }

/-- Priority-10 subscription whose handler throws (id 0). -/
def subThrow : Subscription :=
  { id := 0, pattern := "t", subscriberId := "A", handler := .throws,
    options := { priority := 10 }, regex := compilePattern "t" }

/-- Priority-0 subscription delivered after `subThrow` (id 1). -/
def subAfter : Subscription :=
  { id := 1, pattern := "t", subscriberId := "B", handler := .returns,
    options := { priority := 0 }, regex := compilePattern "t" }

/-- A bus where the first-delivered handler throws and a second
matched subscriber follows. -/
def stThrow : EventBusState :=
  { m_subscriptions := [subThrow, subAfter]
    m_subscriberIndex := [("A", [0]), ("B", [1])]
    m_nextId := 2 }

/-- A request handler that returns a value. -/
def reqHandlerOk : Event → HandlerOutcome :=
  fun _ => .ok [("r", "1")]

/-- A request handler that throws a `std::exception`-derived
exception. -/
def reqHandlerBoom : Event → HandlerOutcome :=
  fun _ => .stdExc "boom"

/-- A request handler that throws a C++ throwable not derived from
`std::exception`. -/
def reqHandlerRaw : Event → HandlerOutcome :=
  fun _ => .nonStdThrow

/-- A bus whose `a/b` request handler returns normally. -/
def stReqOk : EventBusState :=
  { m_requestHandlers := [("a/b", { topic := "a/b", handlerId := "h1", handler := reqHandlerOk })] }

/-- A bus whose `a/b` request handler throws a `std::exception`. -/
def stReqBoom : EventBusState :=
  { m_requestHandlers := [("a/b", { topic := "a/b", handlerId := "h1", handler := reqHandlerBoom })] }

/-- A bus whose `a/b` request handler throws a non-`std::exception`
throwable. -/
def stReqRaw : EventBusState :=
  { m_requestHandlers := [("a/b", { topic := "a/b", handlerId := "h1", handler := reqHandlerRaw })] }

/-- A concrete event for witness instantiations: topic `t`, sender
`pub`. -/
def evPub : Event :=
  { topic := "t", senderId := "pub", data := [], timestamp := 0 }

/-- First registered handler in the C7 scenario. -/
def fHandler : Event → HandlerOutcome :=
  fun _ => .ok [("who", "f")]

/-- Late-coming handler in the C7 scenario (must be rejected). -/
def gHandler : Event → HandlerOutcome :=
  fun _ => .ok [("who", "g")]

/-! ## Helper lemmas: the insertion sorts meet the `std::sort` contract -/

theorem insertDescStable_perm (x : Subscription) (l : List Subscription) :
    (insertDescStable x l).Perm (x :: l) := by
  induction l with
  | nil => simp [insertDescStable]
  | cons y ys ih =>
    by_cases h : y.options.priority ≤ x.options.priority
    · simp [insertDescStable, h]
    · simpa [insertDescStable, h] using (ih.cons y).trans (List.Perm.swap x y ys)

theorem insertDescAnti_perm (x : Subscription) (l : List Subscription) :
    (insertDescAnti x l).Perm (x :: l) := by
  induction l with
  | nil => simp [insertDescAnti]
  | cons y ys ih =>
    by_cases h : y.options.priority < x.options.priority
    · simp [insertDescAnti, h]
    · simpa [insertDescAnti, h] using (ih.cons y).trans (List.Perm.swap x y ys)

theorem insertDescStable_pairwise (x : Subscription) (l : List Subscription)
    (h : l.Pairwise (fun a b => b.options.priority ≤ a.options.priority)) :
    (insertDescStable x l).Pairwise (fun a b => b.options.priority ≤ a.options.priority) := by
  induction l with
  | nil => simp [insertDescStable]
  | cons y ys ih =>
    rw [List.pairwise_cons] at h
    by_cases hc : y.options.priority ≤ x.options.priority
    · simp only [insertDescStable, if_pos hc, List.pairwise_cons]
      refine ⟨?_, h⟩
      intro z hz
      rcases List.mem_cons.mp hz with rfl | hz2
      · exact hc
      · exact le_trans (h.1 z hz2) hc
    · simp only [insertDescStable, if_neg hc, List.pairwise_cons]
      refine ⟨?_, ih h.2⟩
      intro z hz
      rcases List.mem_cons.mp ((insertDescStable_perm x ys).mem_iff.mp hz) with rfl | hz2
      · omega
      · exact h.1 z hz2

theorem insertDescAnti_pairwise (x : Subscription) (l : List Subscription)
    (h : l.Pairwise (fun a b => b.options.priority ≤ a.options.priority)) :
    (insertDescAnti x l).Pairwise (fun a b => b.options.priority ≤ a.options.priority) := by
  induction l with
  | nil => simp [insertDescAnti]
  | cons y ys ih =>
    rw [List.pairwise_cons] at h
    by_cases hc : y.options.priority < x.options.priority
    · simp only [insertDescAnti, if_pos hc, List.pairwise_cons]
      refine ⟨?_, h⟩
      intro z hz
      rcases List.mem_cons.mp hz with rfl | hz2
      · omega
      · have := h.1 z hz2; omega
    · simp only [insertDescAnti, if_neg hc, List.pairwise_cons]
      refine ⟨?_, ih h.2⟩
      intro z hz
      rcases List.mem_cons.mp ((insertDescAnti_perm x ys).mem_iff.mp hz) with rfl | hz2
      · omega
      · exact h.1 z hz2

theorem validSort_sortDescStable : ValidSort sortDescStable := by
  intro l
  induction l with
  | nil => exact ⟨List.Perm.refl _, List.Pairwise.nil⟩
  | cons x xs ih =>
    refine ⟨?_, ?_⟩
    · exact (insertDescStable_perm x (sortDescStable xs)).trans (ih.1.cons x)
    · exact insertDescStable_pairwise x (sortDescStable xs) ih.2

theorem validSort_sortDescAnti : ValidSort sortDescAnti := by
  intro l
  induction l with
  | nil => exact ⟨List.Perm.refl _, List.Pairwise.nil⟩
  | cons x xs ih =>
    refine ⟨?_, ?_⟩
    · exact (insertDescAnti_perm x (sortDescAnti xs)).trans (ih.1.cons x)
    · exact insertDescAnti_pairwise x (sortDescAnti xs) ih.2

/-- A permutation of a two-element list is one of its two arrangements. -/
theorem perm_two {α : Type} {l : List α} {a b : α} (h : l.Perm [a, b]) :
    l = [a, b] ∨ l = [b, a] := by
  obtain ⟨x, y, rfl⟩ := List.length_eq_two.mp (by simpa using h.length_eq)
  have hx : x = a ∨ x = b := List.mem_pair.mp (h.mem_iff.mp (by simp))
  have hy : y = a ∨ y = b := List.mem_pair.mp (h.mem_iff.mp (by simp))
  have hav : a = x ∨ a = y := List.mem_pair.mp (h.symm.mem_iff.mp (by simp))
  have hbv : b = x ∨ b = y := List.mem_pair.mp (h.symm.mem_iff.mp (by simp))
  rcases hx with hx | hx <;> rcases hy with hy | hy <;> subst hx <;> subst hy
  · rcases hbv with hb | hb <;> (subst hb; left; rfl)
  · left; rfl
  · right; rfl
  · rcases hav with ha | ha <;> (subst ha; left; rfl)

/-! ## Helper lemmas: the delivery loop -/

/-- When no handler in the list throws synchronously, the delivery
loop runs to completion: it counts exactly the non-self-excluded
subscriptions, invokes exactly those of them that carry a callback (in
list order), and raises no fault. -/
theorem deliverLoop_eq (senderId : String) (sync : Bool) (l : List Subscription)
    (h : sync = false ∨ ∀ s ∈ l, s.handler ≠ .throws) :
    deliverLoop senderId sync l =
      (l.countP (fun s => !skipOwn senderId s),
       (l.filter (fun s => !skipOwn senderId s && s.handler != .noHandler)).map Subscription.id,
       false) := by
  induction l with
  | nil => simp [deliverLoop]
  | cons sub rest ih =>
    have hrest : sync = false ∨ ∀ s ∈ rest, s.handler ≠ .throws := by
      rcases h with h | h
      · exact Or.inl h
      · exact Or.inr fun s hs => h s (List.mem_cons_of_mem _ hs)
    have IH := ih hrest
    cases hskip : skipOwn senderId sub with
    | true =>
      have hg : (!sub.options.receiveOwnEvents && sub.subscriberId == senderId) = true := hskip
      simp only [deliverLoop]
      rw [if_pos hg, IH]
      simp [List.countP_cons, List.filter_cons, hskip]
    | false =>
      have hg : (!sub.options.receiveOwnEvents && sub.subscriberId == senderId) = false := hskip
      simp only [deliverLoop]
      rw [if_neg (by simp [hg])]
      cases hh : sub.handler with
      | noHandler =>
        rw [IH]
        simp [List.countP_cons, List.filter_cons, hskip, hh]
      | returns =>
        rw [IH]
        simp [List.countP_cons, List.filter_cons, hskip, hh]
      | throws =>
        have hsync : sync = false := by
          rcases h with h | h
          · exact h
          · exact absurd hh (h sub (List.mem_cons_self _ _))
        subst hsync
        rw [if_neg (by simp), IH]
        simp [List.countP_cons, List.filter_cons, hskip, hh]

/-- The asynchronous delivery loop cannot fault: thrown handler
exceptions surface on the queued execution context, not here. -/
theorem deliverLoop_async_no_fault (senderId : String) (l : List Subscription) :
    (deliverLoop senderId false l).2.2 = false := by
  induction l with
  | nil => simp [deliverLoop]
  | cons sub rest ih =>
    by_cases hskip : (!sub.options.receiveOwnEvents && sub.subscriberId == senderId) = true
    · simpa [deliverLoop, hskip] using ih
    · have hskip' : (!sub.options.receiveOwnEvents && sub.subscriberId == senderId) = false := by
        simpa using hskip
      cases hh : sub.handler <;>
        simpa [deliverLoop, hskip', hh] using ih

/-- The invocation trace of the delivery loop is the id-image of a
sublist of the delivered list (in order): handlers run in list
order, whether or not the loop aborts on a synchronous throw. -/
theorem deliverLoop_invoked_sublist (senderId : String) (sync : Bool) :
    ∀ l : List Subscription, ∃ l' : List Subscription,
      (deliverLoop senderId sync l).2.1 = l'.map Subscription.id ∧ l'.Sublist l := by
  intro l
  induction l with
  | nil => exact ⟨[], rfl, List.nil_sublist _⟩
  | cons sub rest ih =>
    obtain ⟨l', hmap, hsub⟩ := ih
    cases hskip : (!sub.options.receiveOwnEvents && sub.subscriberId == senderId) with
    | true =>
      refine ⟨l', ?_, hsub.cons sub⟩
      simp only [deliverLoop]
      rw [if_pos hskip]
      exact hmap
    | false =>
      cases hh : sub.handler with
      | noHandler =>
        refine ⟨l', ?_, hsub.cons sub⟩
        simp only [deliverLoop]
        rw [if_neg (by simp [hskip]), hh]
        rcases hdl : deliverLoop senderId sync rest with ⟨n, inv, f⟩
        rw [hdl] at hmap
        simpa using hmap
      | returns =>
        refine ⟨sub :: l', ?_, List.Sublist.cons₂ sub hsub⟩
        simp only [deliverLoop]
        rw [if_neg (by simp [hskip]), hh]
        rcases hdl : deliverLoop senderId sync rest with ⟨n, inv, f⟩
        rw [hdl] at hmap
        simpa using hmap
      | throws =>
        cases sync with
        | true =>
          refine ⟨[sub], ?_, List.Sublist.cons₂ sub (List.nil_sublist _)⟩
          simp only [deliverLoop]
          rw [if_neg (by simp [hskip]), hh]
          rfl
        | false =>
          refine ⟨sub :: l', ?_, List.Sublist.cons₂ sub hsub⟩
          simp only [deliverLoop]
          rw [if_neg (by simp [hskip]), hh]
          rcases hdl : deliverLoop senderId false rest with ⟨n, inv, f⟩
          rw [hdl] at hmap
          simpa using hmap

/-! ## Helper lemmas: the topic-stats table -/

/-- After `bumpStats`, the bumped topic's entry holds the incremented
event count and the new timestamp. -/
theorem find?_bumpStats (stats : List (String × TopicData)) (topic : String) (ts : Int) :
    (bumpStats stats topic ts).find? (fun e => e.1 == topic) =
      some (topic,
        { topic := topic
          eventCount := (((stats.find? (fun e => e.1 == topic)).map Prod.snd).getD {}).eventCount + 1
          lastEventTime := ts }) := by
  induction stats with
  | nil => simp [bumpStats]
  | cons kd rest ih =>
    obtain ⟨k, d⟩ := kd
    by_cases hk : k = topic
    · subst hk
      simp [bumpStats]
    · have hk' : (k == topic) = false := by simpa using hk
      simp [bumpStats, hk, hk', ih]

/-- Pin down the sorted order of a two-subscription match list whose
priorities differ: any routine meeting the `std::sort` contract must
put the higher-priority subscription first. -/
theorem validSort_pins_two (sortFn : List Subscription → List Subscription)
    (hs : ValidSort sortFn) (a b : Subscription)
    (hab : b.options.priority < a.options.priority) :
    sortFn [a, b] = [a, b] := by
  obtain ⟨hperm, hsort⟩ := hs [a, b]
  rcases perm_two hperm with h1 | h1
  · exact h1
  · exfalso
    rw [h1] at hsort
    have := (List.pairwise_cons.mp hsort).1 a (by simp)
    omega

/-! ## Helper lemmas: the substitution pipeline -/

theorem replaceAux_eq_spec (tgt repl : List Char) :
    ∀ fuel (s : List Char), s.length ≤ fuel →
      replaceAux tgt repl fuel s = replaceSpec tgt repl s := by
  intro fuel
  induction fuel with
  | zero =>
    intro s hs
    have hnil : s = [] := List.length_eq_zero.mp (Nat.le_zero.mp hs)
    subst hnil
    simp [replaceAux, replaceSpec]
  | succ n ih =>
    intro s hs
    cases s with
    | nil => simp [replaceAux, replaceSpec]
    | cons c rest =>
      simp only [replaceAux, replaceSpec]
      by_cases h : tgt ≠ [] ∧ tgt.isPrefixOf (c :: rest)
      · rw [if_pos h, if_pos h]
        congr 1
        apply ih
        have h2 : (rest.drop (tgt.length - 1)).length ≤ rest.length := by
          rw [List.length_drop]; omega
        simp only [List.length_cons] at hs
        omega
      · rw [if_neg h, if_neg h]
        congr 1
        apply ih
        simp only [List.length_cons] at hs
        omega

theorem replaceChars_eq_spec (tgt repl s : List Char) :
    replaceChars tgt repl s = replaceSpec tgt repl s :=
  replaceAux_eq_spec tgt repl s.length s (le_refl _)

theorem replaceSpec_pos {tgt : List Char} (repl : List Char) {c : Char} {rest : List Char}
    (hne : tgt ≠ []) (h : tgt.isPrefixOf (c :: rest) = true) :
    replaceSpec tgt repl (c :: rest) =
      repl ++ replaceSpec tgt repl (rest.drop (tgt.length - 1)) := by
  simp only [replaceSpec]
  rw [if_pos ⟨hne, h⟩]

theorem replaceSpec_skip {tgt : List Char} (repl : List Char) {c : Char} {rest : List Char}
    (h : tgt.isPrefixOf (c :: rest) = false) :
    replaceSpec tgt repl (c :: rest) = c :: replaceSpec tgt repl rest := by
  simp only [replaceSpec]
  rw [if_neg]
  rintro ⟨-, h2⟩
  rw [h] at h2
  cases h2

theorem replaceSpec_skip_block {tgt repl : List Char} {t0 : Char} {t' : List Char}
    (htgt : tgt = t0 :: t') (block : List Char)
    (hb : ∀ c ∈ block, (t0 == c) = false) (s : List Char) :
    replaceSpec tgt repl (block ++ s) = block ++ replaceSpec tgt repl s := by
  induction block with
  | nil => simp
  | cons c bl ih =>
    have hpre : tgt.isPrefixOf (c :: (bl ++ s)) = false := by
      rw [htgt, List.isPrefixOf_cons₂, hb c (List.mem_cons_self _ _)]
      rfl
    rw [List.cons_append, replaceSpec_skip _ hpre,
      ih (fun d hd => hb d (List.mem_cons_of_mem _ hd))]
    rfl

theorem isPrefixOf_append_self (l s : List Char) : (l.isPrefixOf (l ++ s)) = true := by
  induction l with
  | nil => simp [List.isPrefixOf]
  | cons c bl ih => simp [List.isPrefixOf_cons₂, ih]

/-- The placeholder, spelled out. -/
theorem php_chars :
    doubleStarPlaceholder =
      ['<', '<', 'D', 'O', 'U', 'B', 'L', 'E', '_', 'S', 'T', 'A', 'R', '>', '>'] := by
  decide

theorem escapeChars_cons (c : Char) (x : List Char) :
    escapeChars (c :: x) = escBlock c ++ escapeChars x := by
  cases hw : isWordChar c <;> simp [escapeChars, escBlock, hw]

theorem word_ne_char {c d : Char} (hw : isWordChar c = true) (hd : isWordChar d = false) :
    (d == c) = false := by
  apply beq_eq_false_iff_ne.mpr
  intro h
  rw [h] at hd
  rw [hw] at hd
  cases hd

/-- `escape` output never starts with a bare `*`. -/
theorem star_prefix_escape (r : List Char) (t' : List Char) :
    (('*' :: t').isPrefixOf (escapeChars r)) = false := by
  cases r with
  | nil => rfl
  | cons c x =>
    rw [escapeChars_cons]
    cases hw : isWordChar c with
    | true =>
      rw [show escBlock c = [c] by simp [escBlock, hw]]
      simp [List.isPrefixOf_cons₂, word_ne_char hw (by decide : isWordChar '*' = false)]
    | false =>
      rw [show escBlock c = ['\\', c] by simp [escBlock, hw]]
      simp [List.isPrefixOf_cons₂, (by decide : (('*' : Char) == '\\') = false)]

/-- `escape` output starts with `\*` iff the pattern starts with `*`. -/
theorem escapedStar_prefix_escape {r : List Char}
    (h : ((['\\', '*'] : List Char).isPrefixOf (escapeChars r)) = true) :
    ∃ x, r = '*' :: x := by
  cases r with
  | nil => cases h
  | cons c x =>
    rw [escapeChars_cons] at h
    cases hw : isWordChar c with
    | true =>
      rw [show escBlock c = [c] by simp [escBlock, hw]] at h
      rw [show ([c] ++ escapeChars x) = c :: escapeChars x from rfl,
        List.isPrefixOf_cons₂, word_ne_char hw (by decide : isWordChar '\\' = false)] at h
      cases h
    | false =>
      rw [show escBlock c = ['\\', c] by simp [escBlock, hw]] at h
      rw [show (['\\', c] ++ escapeChars x) = '\\' :: c :: escapeChars x from rfl] at h
      simp only [List.isPrefixOf_cons₂] at h
      have hc : ('*' == c) = true := by
        cases hb : ('*' == c) with
        | true => rfl
        | false => rw [hb] at h; simp at h
      have : c = '*' := (eq_of_beq hc).symm
      exact ⟨x, by rw [this]⟩

/-- `s1` output never starts with a bare `*`. -/
theorem star_prefix_s1 (r : List Char) : ∀ t' : List Char,
    (('*' :: t').isPrefixOf (s1 r)) = false := by
  induction r using s1.induct with
  | case1 => intro t'; rfl
  | case2 rest ih =>
    intro t'
    rw [s1.eq_2, php_chars]
    simp [List.isPrefixOf_cons₂, (by decide : (('*' : Char) == '<') = false)]
  | case3 rest h ih =>
    intro t'
    rw [s1.eq_3 rest h]
    simp [List.isPrefixOf_cons₂, (by decide : (('*' : Char) == '\\') = false)]
  | case4 c rest h hc ih =>
    intro t'
    rw [s1.eq_4 c rest h hc]
    cases hw : isWordChar c with
    | true =>
      rw [show escBlock c = [c] by simp [escBlock, hw]]
      have hcc : ('*' == c) = false :=
        beq_eq_false_iff_ne.mpr (fun he => hc he.symm)
      simp [List.isPrefixOf_cons₂, hcc]
    | false =>
      rw [show escBlock c = ['\\', c] by simp [escBlock, hw]]
      simp [List.isPrefixOf_cons₂, (by decide : (('*' : Char) == '\\') = false)]

/-- Stage 1: the `\*\*` → placeholder substitution applied to the
escaped pattern. -/
theorem replace1_escape (p : List Char) :
    replaceSpec escapedDoubleStar doubleStarPlaceholder (escapeChars p) = s1 p := by
  induction p using s1.induct with
  | case1 => simp [escapeChars, replaceSpec, s1]
  | case2 rest ih =>
    rw [show escapeChars ('*' :: '*' :: rest) = '\\' :: '*' :: '\\' :: '*' :: escapeChars rest
        from rfl]
    rw [replaceSpec_pos doubleStarPlaceholder (by decide)
      (by simp [escapedDoubleStar, List.isPrefixOf_cons₂, List.isPrefixOf])]
    rw [show (('*' :: '\\' :: '*' :: escapeChars rest).drop (escapedDoubleStar.length - 1)) =
        escapeChars rest from rfl]
    rw [ih, s1.eq_2]
  | case3 rest h ih =>
    rw [show escapeChars ('*' :: rest) = '\\' :: '*' :: escapeChars rest from rfl]
    have hpre : escapedDoubleStar.isPrefixOf ('\\' :: '*' :: escapeChars rest) = false := by
      simp only [escapedDoubleStar, List.isPrefixOf_cons₂, beq_self_eq_true, Bool.true_and]
      cases hp : ((['\\', '*'] : List Char).isPrefixOf (escapeChars rest)) with
      | false => rfl
      | true =>
        obtain ⟨x, hx⟩ := escapedStar_prefix_escape hp
        exact absurd hx (fun hh => h x hh)
    rw [replaceSpec_skip _ hpre]
    have hpre2 : escapedDoubleStar.isPrefixOf ('*' :: escapeChars rest) = false := by
      simp [escapedDoubleStar, List.isPrefixOf_cons₂,
        (by decide : (('\\' : Char) == '*') = false)]
    rw [replaceSpec_skip _ hpre2, ih, s1.eq_3 rest h]
  | case4 c rest h hc ih =>
    rw [escapeChars_cons, s1.eq_4 c rest h hc]
    cases hw : isWordChar c with
    | true =>
      rw [show escBlock c = [c] by simp [escBlock, hw]]
      have hcb : ('\\' == c) = false := word_ne_char hw (by decide)
      have hpre : escapedDoubleStar.isPrefixOf (c :: escapeChars rest) = false := by
        simp [escapedDoubleStar, List.isPrefixOf_cons₂, hcb]
      rw [show ([c] ++ escapeChars rest) = c :: escapeChars rest from rfl,
        replaceSpec_skip _ hpre, ih]
      rfl
    | false =>
      rw [show escBlock c = ['\\', c] by simp [escBlock, hw]]
      have hcstar : ('*' == c) = false := beq_eq_false_iff_ne.mpr (fun he => hc he.symm)
      have hpre : escapedDoubleStar.isPrefixOf ('\\' :: c :: escapeChars rest) = false := by
        simp [escapedDoubleStar, List.isPrefixOf_cons₂, hcstar]
      rw [show (['\\', c] ++ escapeChars rest) = '\\' :: c :: escapeChars rest from rfl,
        replaceSpec_skip _ hpre]
      by_cases hcb : c = '\\'
      · subst hcb
        have hpre2 : escapedDoubleStar.isPrefixOf ('\\' :: escapeChars rest) = false := by
          simp only [escapedDoubleStar, List.isPrefixOf_cons₂, beq_self_eq_true, Bool.true_and]
          exact star_prefix_escape rest _
        rw [replaceSpec_skip _ hpre2, ih]
        rfl
      · have hpre2 : escapedDoubleStar.isPrefixOf (c :: escapeChars rest) = false := by
          simp [escapedDoubleStar, List.isPrefixOf_cons₂,
            beq_eq_false_iff_ne.mpr (Ne.symm hcb)]
        rw [replaceSpec_skip _ hpre2, ih]
        rfl

/-- Stage 2: the `\*` → `[^/]+` substitution applied to the stage-1
string. -/
theorem replace2_s1 (p : List Char) :
    replaceSpec escapedStar ['[', '^', '/', ']', '+'] (s1 p) = s2 p := by
  induction p using s1.induct with
  | case1 => simp [s1, s2, replaceSpec]
  | case2 rest ih =>
    rw [s1.eq_2, s2.eq_2, php_chars,
      replaceSpec_skip_block (rfl : escapedStar = '\\' :: ['*']) _ (by decide) _, ih]
  | case3 rest h ih =>
    rw [s1.eq_3 rest h, s2.eq_3 rest h]
    rw [replaceSpec_pos _ (by decide)
      (by simp [escapedStar, List.isPrefixOf_cons₂, List.isPrefixOf])]
    rw [show (('*' :: s1 rest).drop (escapedStar.length - 1)) = s1 rest from rfl, ih]
    rfl
  | case4 c rest h hc ih =>
    rw [s1.eq_4 c rest h hc, s2.eq_4 c rest h hc]
    cases hw : isWordChar c with
    | true =>
      rw [show escBlock c = [c] by simp [escBlock, hw]]
      have hpre : escapedStar.isPrefixOf (c :: s1 rest) = false := by
        simp [escapedStar, List.isPrefixOf_cons₂,
          word_ne_char hw (by decide : isWordChar '\\' = false)]
      rw [show ([c] ++ s1 rest) = c :: s1 rest from rfl, replaceSpec_skip _ hpre, ih]
      rfl
    | false =>
      rw [show escBlock c = ['\\', c] by simp [escBlock, hw]]
      have hcstar : ('*' == c) = false := beq_eq_false_iff_ne.mpr (fun he => hc he.symm)
      have hpre : escapedStar.isPrefixOf ('\\' :: c :: s1 rest) = false := by
        simp [escapedStar, List.isPrefixOf_cons₂, hcstar]
      rw [show (['\\', c] ++ s1 rest) = '\\' :: c :: s1 rest from rfl,
        replaceSpec_skip _ hpre]
      by_cases hcb : c = '\\'
      · subst hcb
        have hpre2 : escapedStar.isPrefixOf ('\\' :: s1 rest) = false := by
          simp only [escapedStar, List.isPrefixOf_cons₂, beq_self_eq_true, Bool.true_and]
          exact star_prefix_s1 rest []
        rw [replaceSpec_skip _ hpre2, ih]
        rfl
      · have hpre2 : escapedStar.isPrefixOf (c :: s1 rest) = false := by
          simp [escapedStar, List.isPrefixOf_cons₂, beq_eq_false_iff_ne.mpr (Ne.symm hcb)]
        rw [replaceSpec_skip _ hpre2, ih]
        rfl

/-- The tail of the placeholder is never a prefix of a stage-2 string:
`<` pairs up only inside a whole placeholder. -/
theorem phpTail_prefix_s2 (r : List Char) :
    ((['<', 'D', 'O', 'U', 'B', 'L', 'E', '_', 'S', 'T', 'A', 'R', '>', '>'] :
      List Char).isPrefixOf (s2 r)) = false := by
  induction r using s2.induct with
  | case1 => rfl
  | case2 rest ih =>
    rw [s2.eq_2, php_chars]
    simp [List.isPrefixOf_cons₂, (by decide : (('D' : Char) == '<') = false)]
  | case3 rest h ih =>
    rw [s2.eq_3 rest h]
    simp [List.isPrefixOf_cons₂, (by decide : (('<' : Char) == '[') = false)]
  | case4 c rest h hc ih =>
    rw [s2.eq_4 c rest h hc]
    cases hw : isWordChar c with
    | true =>
      rw [show escBlock c = [c] by simp [escBlock, hw]]
      simp [List.isPrefixOf_cons₂, word_ne_char hw (by decide : isWordChar '<' = false)]
    | false =>
      rw [show escBlock c = ['\\', c] by simp [escBlock, hw]]
      simp [List.isPrefixOf_cons₂, (by decide : (('<' : Char) == '\\') = false)]

/-- Stage 3: the placeholder → `.+` substitution applied to the
stage-2 string, yielding the final regex body. -/
theorem replace3_s2 (p : List Char) :
    replaceSpec doubleStarPlaceholder ['.', '+'] (s2 p) = s3 p := by
  induction p using s2.induct with
  | case1 => simp [s2, s3, replaceSpec]
  | case2 rest ih =>
    rw [s2.eq_2, s3.eq_2, php_chars]
    simp only [List.cons_append]
    have hpre : (['<', '<', 'D', 'O', 'U', 'B', 'L', 'E', '_', 'S', 'T', 'A', 'R', '>', '>'] :
        List Char).isPrefixOf
        ('<' :: '<' :: 'D' :: 'O' :: 'U' :: 'B' :: 'L' :: 'E' :: '_' :: 'S' :: 'T' :: 'A' ::
          'R' :: '>' :: '>' :: ([] ++ s2 rest)) = true := by
      simp [List.isPrefixOf_cons₂, List.isPrefixOf]
    rw [replaceSpec_pos _ (by decide) hpre]
    have hdrop : ∀ X : List Char,
        (('<' :: 'D' :: 'O' :: 'U' :: 'B' :: 'L' :: 'E' :: '_' :: 'S' :: 'T' :: 'A' :: 'R' ::
          '>' :: '>' :: X).drop
          ((['<', '<', 'D', 'O', 'U', 'B', 'L', 'E', '_', 'S', 'T', 'A', 'R', '>', '>'] :
            List Char).length - 1)) = X := fun X => rfl
    rw [hdrop, List.nil_append, ← php_chars, ih]
    rfl
  | case3 rest h ih =>
    rw [s2.eq_3 rest h, s3.eq_3 rest h]
    rw [show ('[' :: '^' :: '/' :: ']' :: '+' :: s2 rest) =
        ['[', '^', '/', ']', '+'] ++ s2 rest from rfl]
    rw [replaceSpec_skip_block (php_chars) _ (by decide) _, ih]
    rfl
  | case4 c rest h hc ih =>
    rw [s2.eq_4 c rest h hc, s3.eq_4 c rest h hc]
    cases hw : isWordChar c with
    | true =>
      rw [show escBlock c = [c] by simp [escBlock, hw]]
      have hpre : doubleStarPlaceholder.isPrefixOf (c :: s2 rest) = false := by
        rw [php_chars]
        simp [List.isPrefixOf_cons₂, word_ne_char hw (by decide : isWordChar '<' = false)]
      rw [show ([c] ++ s2 rest) = c :: s2 rest from rfl, replaceSpec_skip _ hpre, ih]
      rfl
    | false =>
      rw [show escBlock c = ['\\', c] by simp [escBlock, hw]]
      have hpre : doubleStarPlaceholder.isPrefixOf ('\\' :: c :: s2 rest) = false := by
        rw [php_chars]
        simp [List.isPrefixOf_cons₂, (by decide : (('<' : Char) == '\\') = false)]
      rw [show (['\\', c] ++ s2 rest) = '\\' :: c :: s2 rest from rfl,
        replaceSpec_skip _ hpre]
      by_cases hcb : c = '<'
      · subst hcb
        have hpre2 : doubleStarPlaceholder.isPrefixOf ('<' :: s2 rest) = false := by
          rw [php_chars]
          simp only [List.isPrefixOf_cons₂, beq_self_eq_true, Bool.true_and]
          exact phpTail_prefix_s2 rest
        rw [replaceSpec_skip _ hpre2, ih]
        rfl
      · have hpre2 : doubleStarPlaceholder.isPrefixOf (c :: s2 rest) = false := by
          rw [php_chars]
          simp [List.isPrefixOf_cons₂, beq_eq_false_iff_ne.mpr (Ne.symm hcb)]
        rw [replaceSpec_skip _ hpre2, ih]
        rfl

/-- Reading a plain literal character (not starting an escape, a
character class, or a dot token). -/
theorem tokenizeRegex_lit {c : Char} (h1 : c ≠ '\\') (h2 : c ≠ '[') (h3 : c ≠ '.')
    (X : List Char) : tokenizeRegex (c :: X) = .lit c :: tokenizeRegex X := by
  rw [tokenizeRegex.eq_def]
  split
  · rename_i heq
    simp at heq
  · rename_i heq
    injection heq with ha hb
    exact absurd ha h1
  · rename_i heq
    injection heq with ha hb
    exact absurd ha h2
  · rename_i heq
    injection heq with ha hb
    exact absurd ha h3
  · rename_i heq
    injection heq with ha hb
    exact absurd ha h3
  · rename_i heq
    injection heq with ha hb
    rw [← ha, ← hb]

/-- Stage 4: tokenizing the final regex body recovers the spec-side
pattern tokens. -/
theorem tokenize_s3 (p : List Char) :
    tokenizeRegex (s3 p) = patternTokens p := by
  induction p using s3.induct with
  | case1 => rfl
  | case2 rest ih =>
    rw [s3.eq_2, patternTokens.eq_2]
    rw [show tokenizeRegex ('.' :: '+' :: s3 rest) = .anyPlus :: tokenizeRegex (s3 rest)
        from rfl, ih]
  | case3 rest h ih =>
    rw [s3.eq_3 rest h, patternTokens.eq_3 rest h]
    rw [show tokenizeRegex ('[' :: '^' :: '/' :: ']' :: '+' :: s3 rest) =
        .nonSlashPlus :: tokenizeRegex (s3 rest) from rfl, ih]
  | case4 c rest h hc ih =>
    rw [s3.eq_4 c rest h hc, patternTokens.eq_4 c rest h hc]
    cases hw : isWordChar c with
    | true =>
      rw [show escBlock c = [c] by simp [escBlock, hw]]
      have h1 : c ≠ '\\' := fun he => by rw [he] at hw; cases hw
      have h2 : c ≠ '[' := fun he => by rw [he] at hw; cases hw
      have h3 : c ≠ '.' := fun he => by rw [he] at hw; cases hw
      rw [show ([c] ++ s3 rest) = c :: s3 rest from rfl, tokenizeRegex_lit h1 h2 h3, ih]
    | false =>
      rw [show escBlock c = ['\\', c] by simp [escBlock, hw]]
      rw [show (['\\', c] ++ s3 rest) = '\\' :: c :: s3 rest from rfl]
      rw [show tokenizeRegex ('\\' :: c :: s3 rest) = .lit c :: tokenizeRegex (s3 rest)
        from rfl, ih]

/-- The whole compiler: escape, `**`-first substitution, `*`
substitution, anchoring. -/
theorem compilePattern_eq_s3 (p : String) :
    compilePattern p = '^' :: s3 p.toList ++ ['$'] := by
  simp only [compilePattern]
  rw [replaceChars_eq_spec, replaceChars_eq_spec, replaceChars_eq_spec]
  rw [show ("[^/]+".toList) = ['[', '^', '/', ']', '+'] from rfl,
    show (".+".toList) = ['.', '+'] from rfl]
  rw [replace1_escape, replace2_s1, replace3_s2]

/-- Unfolding `regexHasMatch` on a `^`-anchored regex. -/
theorem regexHasMatch_caret (X t : List Char) :
    regexHasMatch ('^' :: X) t =
      match X.getLast? with
      | some '$' => matchTokens (tokenizeRegex X.dropLast) t
      | _ => false := rfl

/-- `matchesTopic` agrees, on every topic and pattern, with matching
the spec-side pattern tokens against the whole topic. -/
theorem matchesTopic_tokens (topic pattern : String) :
    matchesTopic topic pattern = matchTokens (patternTokens pattern.toList) topic.toList := by
  simp only [matchesTopic]
  rw [compilePattern_eq_s3, List.cons_append, regexHasMatch_caret, List.getLast?_concat,
    List.dropLast_concat, tokenize_s3]
  rfl

/-! ## Claim theorems -/

/-- **C1.** `compilePattern`/`matchesTopic` escape regex
metacharacters, substitute every escaped `**` token (to `.+`,
one-or-more of any character) BEFORE every remaining escaped `*` (to
`[^/]+`, one-or-more non-`/` characters), and anchor the result to the
whole topic: for EVERY pattern and topic the compiled matcher agrees
with the spec-side tokenizer `patternTokens` that performs exactly
those substitutions in that order; and the four documented examples
hold. -/
theorem C1_wildcard_matching :
    (∀ topic pattern : String,
      matchesTopic topic pattern = matchTokens (patternTokens pattern.toList) topic.toList) ∧
    matchesTopic "orders/created" "orders/*" = true ∧
    matchesTopic "orders/items/added" "orders/*" = false ∧
    matchesTopic "orders/items/added" "orders/**" = true ∧
    matchesTopic "anything/at/all" "**" = true := by
  refine ⟨matchesTopic_tokens, ?_, ?_, ?_, ?_⟩ <;> decide

/-- **C2 (counterexample).** The claim that the matched subscriptions
are ordered with a *stable* sort — so equal priorities are delivered
in insertion/scan order — is false: `deliverEvent` uses `std::sort`,
whose contract (`ValidSort`) does not promise stability, and under the
conforming routine `sortDescAnti` the two equal-priority subscriptions
of `stEqPrio` (scan order `[0, 1]`) are delivered as `[1, 0]`. -/
theorem C2_stable_sort_counterexample :
    ¬ (∀ sortFn, ValidSort sortFn →
        (publishSync sortFn stEqPrio "t" [] "pub" 0).1.invoked = [0, 1]) := by
  intro hall
  have h := hall sortDescAnti validSort_sortDescAnti
  have h2 : (publishSync sortDescAnti stEqPrio "t" [] "pub" 0).1.invoked = [1, 0] := by
    decide
  rw [h2] at h
  exact absurd h (by decide)

/-- **C2 (amended).** Within one `publish`/`publishSync` call the
matched subscriptions are delivered in priority-descending order, but
through `std::sort`, which is not guaranteed stable, so the relative
order of equal-priority subscriptions is unspecified; for *distinct*
priorities the order is deterministic: with subscriptions of priority
10 and priority 0 on the same pattern, every conforming sort routine
makes `publishSync` invoke the priority-10 handler first. -/
theorem C2_priority_descending (sortFn : List Subscription → List Subscription)
    (hs : ValidSort sortFn) :
    (∀ (st : EventBusState) (ev : Event) (sync : Bool),
      ∃ l : List Subscription,
        (deliverEvent sortFn st ev sync).1.invoked = l.map Subscription.id ∧
        l.Pairwise (fun a b => b.options.priority ≤ a.options.priority) ∧
        ∀ s ∈ l, s ∈ findMatchingSubscriptions st.m_subscriptions ev.topic) ∧
    (publishSync sortFn stPrio "t" [] "pub" 0).1.invoked = [0, 1] := by
  constructor
  · intro st ev sync
    cases hM : (findMatchingSubscriptions st.m_subscriptions ev.topic).isEmpty with
    | true =>
      refine ⟨[], ?_, List.Pairwise.nil, by simp⟩
      simp [deliverEvent, hM]
    | false =>
      obtain ⟨hperm, hsort⟩ := hs (findMatchingSubscriptions st.m_subscriptions ev.topic)
      obtain ⟨l, hmap, hsubl⟩ := deliverLoop_invoked_sublist ev.senderId sync
        (sortFn (findMatchingSubscriptions st.m_subscriptions ev.topic))
      refine ⟨l, ?_, List.Pairwise.sublist hsubl hsort, fun s hsl => hperm.subset (hsubl.subset hsl)⟩
      rcases hdl : deliverLoop ev.senderId sync
          (sortFn (findMatchingSubscriptions st.m_subscriptions ev.topic)) with ⟨n, inv, f⟩
      rw [hdl] at hmap
      simp only [deliverEvent, hM, hdl]
      simpa using hmap
  · have hm : findMatchingSubscriptions stPrio.m_subscriptions "t" = [subHi, subLo] := by
      decide
    have hsf : sortFn [subHi, subLo] = [subHi, subLo] :=
      validSort_pins_two sortFn hs subHi subLo (by decide)
    simp only [publishSync, deliverEvent, hm, hsf]
    decide

/-- **C2 (witness).** The amended theorem instantiated with the
conforming stable sort routine. -/
theorem C2_priority_descending_witness :
    (∀ (st : EventBusState) (ev : Event) (sync : Bool),
      ∃ l : List Subscription,
        (deliverEvent sortDescStable st ev sync).1.invoked = l.map Subscription.id ∧
        l.Pairwise (fun a b => b.options.priority ≤ a.options.priority) ∧
        ∀ s ∈ l, s ∈ findMatchingSubscriptions st.m_subscriptions ev.topic) ∧
    (publishSync sortDescStable stPrio "t" [] "pub" 0).1.invoked = [0, 1] :=
  C2_priority_descending sortDescStable validSort_sortDescStable

/-- **C3 (counterexample).** The claim that a handler exception during
`publishSync` is caught at the dispatch boundary and delivery
continues is false: `deliverEvent` has no try/catch, so on `stThrow`
(priority-10 handler throws, priority-0 subscriber follows) the
exception escapes (`fault`) and subscription 1 is never invoked. -/
theorem C3_sync_fault_counterexample :
    (publishSync sortDescStable stThrow "t" [] "pub" 0).1.fault = true ∧
    1 ∉ (publishSync sortDescStable stThrow "t" [] "pub" 0).1.invoked := by
  decide

/-- **C3 (amended).** An exception thrown by a synchronous handler
propagates out of `publishSync` (there is no catch in `deliverEvent`),
aborting delivery to the remaining matched subscribers and skipping
the passive-listener broadcast; the bus tables themselves are not
corrupted — the subscription table, subscriber index and
request-handler map are untouched (only the topic stats, already
updated, changed).  Holds for every routine meeting the `std::sort`
contract. -/
theorem C3_sync_fault_aborts (sortFn : List Subscription → List Subscription)
    (hs : ValidSort sortFn) :
    (publishSync sortFn stThrow "t" [] "pub" 0).1.fault = true ∧
    (publishSync sortFn stThrow "t" [] "pub" 0).1.invoked = [0] ∧
    (publishSync sortFn stThrow "t" [] "pub" 0).1.passiveEmitted = false ∧
    (publishSync sortFn stThrow "t" [] "pub" 0).2.m_subscriptions = stThrow.m_subscriptions ∧
    (publishSync sortFn stThrow "t" [] "pub" 0).2.m_subscriberIndex = stThrow.m_subscriberIndex ∧
    (publishSync sortFn stThrow "t" [] "pub" 0).2.m_requestHandlers = stThrow.m_requestHandlers := by
  have hm : findMatchingSubscriptions stThrow.m_subscriptions "t" = [subThrow, subAfter] := by
    decide
  have hsf : sortFn [subThrow, subAfter] = [subThrow, subAfter] :=
    validSort_pins_two sortFn hs subThrow subAfter (by decide)
  simp only [publishSync, deliverEvent, hm, hsf]
  refine ⟨by decide, by decide, by decide, rfl, rfl, rfl⟩

/-- **C3 (witness).** The amended theorem instantiated with the
conforming stable sort routine. -/
theorem C3_sync_fault_aborts_witness :
    (publishSync sortDescStable stThrow "t" [] "pub" 0).1.fault = true ∧
    (publishSync sortDescStable stThrow "t" [] "pub" 0).1.invoked = [0] ∧
    (publishSync sortDescStable stThrow "t" [] "pub" 0).1.passiveEmitted = false ∧
    (publishSync sortDescStable stThrow "t" [] "pub" 0).2.m_subscriptions = stThrow.m_subscriptions ∧
    (publishSync sortDescStable stThrow "t" [] "pub" 0).2.m_subscriberIndex = stThrow.m_subscriberIndex ∧
    (publishSync sortDescStable stThrow "t" [] "pub" 0).2.m_requestHandlers = stThrow.m_requestHandlers :=
  C3_sync_fault_aborts sortDescStable validSort_sortDescStable

/-- **C4 (counterexample).** The claim that the `eventPublished`
passive-listener broadcast is delivered for *every* publish is false:
`deliverEvent` returns 0 early when no subscription matches, before
the emission, so publishing on an empty bus (zero matching
subscriptions) never notifies passive listeners — in either delivery
mode. -/
theorem C4_passive_skipped_counterexample :
    (publishSync sortDescStable emptyBus "orders/created" [] "pub" 0).1.passiveEmitted = false ∧
    (publish sortDescStable emptyBus "orders/created" [] "pub" 0).1.passiveEmitted = false := by
  decide

/-- **C4 (amended).** The passive-listener broadcast is emitted
(inline for `publishSync`, queued for `publish`) exactly when at least
one subscription matched the topic and no synchronous handler fault
escaped first; asynchronous delivery never faults inline, so `publish`
broadcasts exactly when the match list is non-empty. -/
theorem C4_passive_emission (sortFn : List Subscription → List Subscription)
    (st : EventBusState) (ev : Event) (sync : Bool) :
    ((deliverEvent sortFn st ev sync).1.passiveEmitted =
      (!(findMatchingSubscriptions st.m_subscriptions ev.topic).isEmpty &&
       !(deliverEvent sortFn st ev sync).1.fault)) ∧
    (deliverEvent sortFn st ev false).1.fault = false := by
  constructor
  · cases hM : (findMatchingSubscriptions st.m_subscriptions ev.topic).isEmpty with
    | true => simp [deliverEvent, hM]
    | false =>
      rcases hdl : deliverLoop ev.senderId sync
          (sortFn (findMatchingSubscriptions st.m_subscriptions ev.topic)) with ⟨n, inv, f⟩
      simp [deliverEvent, hM, hdl]
  · cases hM : (findMatchingSubscriptions st.m_subscriptions ev.topic).isEmpty with
    | true => simp [deliverEvent, hM]
    | false =>
      rcases hdl : deliverLoop ev.senderId false
          (sortFn (findMatchingSubscriptions st.m_subscriptions ev.topic)) with ⟨n, inv, f⟩
      have hf := deliverLoop_async_no_fault ev.senderId
        (sortFn (findMatchingSubscriptions st.m_subscriptions ev.topic))
      rw [hdl] at hf
      simp [deliverEvent, hM, hdl]
      exact hf

/-- **C5.** Per matched subscription: with `receiveOwnEvents` false and
`subscriberId == senderId` it is skipped without being counted and its
handler is not invoked; every other match is counted in
`notifiedCount` — with or without a callback — and its handler, when
present, is invoked/scheduled.  (Stated for every conforming sort
routine; the synchronous case assumes no matched handler throws, since
a synchronous throw aborts the loop — see C3.) -/
theorem C5_self_exclusion_counting
    (sortFn : List Subscription → List Subscription) (hs : ValidSort sortFn)
    (st : EventBusState) (ev : Event) (sync : Bool)
    (hnd : (st.m_subscriptions.map Subscription.id).Nodup)
    (hth : sync = false ∨
      ∀ s ∈ findMatchingSubscriptions st.m_subscriptions ev.topic, s.handler ≠ .throws) :
    (deliverEvent sortFn st ev sync).1.notified =
      (findMatchingSubscriptions st.m_subscriptions ev.topic).countP
        (fun s => !skipOwn ev.senderId s) ∧
    ∀ s ∈ findMatchingSubscriptions st.m_subscriptions ev.topic,
      (skipOwn ev.senderId s = true →
        s.id ∉ (deliverEvent sortFn st ev sync).1.invoked) ∧
      (skipOwn ev.senderId s = false →
        (s.id ∈ (deliverEvent sortFn st ev sync).1.invoked ↔ s.handler ≠ .noHandler)) := by
  have hMnodup : ((findMatchingSubscriptions st.m_subscriptions ev.topic).map
      Subscription.id).Nodup :=
    ((List.filter_sublist st.m_subscriptions).map Subscription.id).nodup hnd
  cases hMe : (findMatchingSubscriptions st.m_subscriptions ev.topic).isEmpty with
  | true =>
    have hraw : findMatchingSubscriptions st.m_subscriptions ev.topic = [] :=
      List.isEmpty_iff.mp hMe
    simp [deliverEvent, hraw]
  | false =>
    obtain ⟨hperm, _⟩ := hs (findMatchingSubscriptions st.m_subscriptions ev.topic)
    have hthS : sync = false ∨
        ∀ s ∈ sortFn (findMatchingSubscriptions st.m_subscriptions ev.topic),
          s.handler ≠ .throws := by
      rcases hth with hth | hth
      · exact Or.inl hth
      · exact Or.inr fun s hsM => hth s (hperm.subset hsM)
    have hloop := deliverLoop_eq ev.senderId sync
      (sortFn (findMatchingSubscriptions st.m_subscriptions ev.topic)) hthS
    have hout : (deliverEvent sortFn st ev sync).1 =
        { notified := (sortFn (findMatchingSubscriptions st.m_subscriptions ev.topic)).countP
            (fun s => !skipOwn ev.senderId s)
          invoked := ((sortFn (findMatchingSubscriptions st.m_subscriptions ev.topic)).filter
            (fun s => !skipOwn ev.senderId s && s.handler != .noHandler)).map Subscription.id
          fault := false
          passiveEmitted := true } := by
      simp [deliverEvent, hMe, hloop]
    rw [hout]
    constructor
    · exact List.Perm.countP_eq _ hperm
    · intro s hsM
      constructor
      · intro hskipT hmem
        obtain ⟨s', hs'f, hid⟩ := List.mem_map.mp hmem
        have hs'M : s' ∈ findMatchingSubscriptions st.m_subscriptions ev.topic :=
          hperm.subset (List.mem_of_mem_filter hs'f)
        have heq : s' = s := List.inj_on_of_nodup_map hMnodup hs'M hsM hid
        have hq := List.of_mem_filter hs'f
        rw [heq] at hq
        rw [hskipT] at hq
        simp at hq
      · intro hskipF
        constructor
        · intro hmem
          obtain ⟨s', hs'f, hid⟩ := List.mem_map.mp hmem
          have hs'M : s' ∈ findMatchingSubscriptions st.m_subscriptions ev.topic :=
            hperm.subset (List.mem_of_mem_filter hs'f)
          have heq : s' = s := List.inj_on_of_nodup_map hMnodup hs'M hsM hid
          have hq := List.of_mem_filter hs'f
          rw [heq] at hq
          have := (Bool.and_eq_true _ _).mp hq
          exact bne_iff_ne.mp this.2
        · intro hne
          have hsSort : s ∈ sortFn (findMatchingSubscriptions st.m_subscriptions ev.topic) :=
            hperm.mem_iff.mpr hsM
          refine List.mem_map.mpr ⟨s, List.mem_filter.mpr ⟨hsSort, ?_⟩, rfl⟩
          rw [hskipF]
          simpa using hne

/-- **C5 (witness).** The counting/exclusion theorem instantiated on
the two-subscription bus `stPrio` with the stable conforming sort. -/
theorem C5_self_exclusion_counting_witness :
    (deliverEvent sortDescStable stPrio evPub true).1.notified =
      (findMatchingSubscriptions stPrio.m_subscriptions evPub.topic).countP
        (fun s => !skipOwn evPub.senderId s) :=
  (C5_self_exclusion_counting sortDescStable validSort_sortDescStable stPrio evPub true
    (by decide) (Or.inr (by decide))).1

/-- **C6 (counterexample).** The claim that a failing responder never
propagates an unhandled fault into the caller is false: the
`try`/`catch` in `request` catches only `std::exception`-derived
throws, so a handler throwing any other C++ throwable (here
`stReqRaw`'s handler) escapes `request` uncaught instead of yielding
"no value". -/
theorem C6_uncaught_fault_counterexample :
    request stReqRaw "a/b" [] "s" 0 0 = RequestResult.fault ∧
    RequestResult.fault ≠ RequestResult.noValue := by
  exact ⟨rfl, by decide⟩

/-- **C6 (amended).** `request` returns "no value" (an absent
optional, not an error) when no handler is registered for the exact
topic; a registered handler is invoked inline and its value returned;
a handler raising a `std::exception`-derived exception is caught at
this boundary and converted to "no value"; but a handler throwing any
other C++ throwable is NOT caught — the fault propagates out of
`request` into the caller. -/
theorem C6_request_behaviour (st : EventBusState) (topic : String)
    (data : VariantMap) (senderId : String) (tmo now : Int) :
    (st.m_requestHandlers.find? (fun e => e.1 == topic) = none →
      request st topic data senderId tmo now = .noValue) ∧
    (∀ k entry, st.m_requestHandlers.find? (fun e => e.1 == topic) = some (k, entry) →
      (∀ v, entry.handler { topic := topic, senderId := senderId, data := data, timestamp := now } =
          .ok v → request st topic data senderId tmo now = .value v) ∧
      (∀ msg, entry.handler { topic := topic, senderId := senderId, data := data, timestamp := now } =
          .stdExc msg → request st topic data senderId tmo now = .noValue) ∧
      (entry.handler { topic := topic, senderId := senderId, data := data, timestamp := now } =
          .nonStdThrow → request st topic data senderId tmo now = .fault)) := by
  refine ⟨fun h => by simp [request, h],
    fun k entry h => ⟨fun v hv => ?_, fun msg hm => ?_, fun hr => ?_⟩⟩
  · simp [request, h, hv]
  · simp [request, h, hm]
  · simp [request, h, hr]

/-- **C6 (witness).** All four behaviours observed concretely: no
handler, a returning handler, a `std::exception`-throwing handler
(caught), and a non-`std::exception`-throwing handler (fault
escapes). -/
theorem C6_request_behaviour_witness :
    request emptyBus "a/b" [] "s" 0 0 = RequestResult.noValue ∧
    request stReqOk "a/b" [] "s" 0 0 = RequestResult.value [("r", "1")] ∧
    request stReqBoom "a/b" [] "s" 0 0 = RequestResult.noValue ∧
    request stReqRaw "a/b" [] "s" 0 0 = RequestResult.fault := by
  refine ⟨(C6_request_behaviour emptyBus "a/b" [] "s" 0 0).1 rfl, ?_, ?_, ?_⟩
  · exact ((C6_request_behaviour stReqOk "a/b" [] "s" 0 0).2 "a/b" _ rfl).1 [("r", "1")] rfl
  · exact ((C6_request_behaviour stReqBoom "a/b" [] "s" 0 0).2 "a/b" _ rfl).2.1 "boom" rfl
  · exact ((C6_request_behaviour stReqRaw "a/b" [] "s" 0 0).2 "a/b" _ rfl).2.2 rfl

/-- **C7.** `registerHandler` returns false and leaves the handler map
unchanged whenever a handler already exists for that exact topic; in
the two-registration scenario on `a/b` the second call fails and
`request("a/b", …)` still invokes the first handler `f`. -/
theorem C7_no_overwrite :
    (∀ st topic handlerId h, hasHandler st topic = true →
      registerHandler st topic handlerId h = (false, st)) ∧
    (∀ (st : EventBusState) (f g : Event → HandlerOutcome)
       (data : VariantMap) (senderId : String) (tmo now : Int),
      hasHandler st "a/b" = false →
      (registerHandler st "a/b" "h1" f).1 = true ∧
      (registerHandler (registerHandler st "a/b" "h1" f).2 "a/b" "h2" g).1 = false ∧
      (registerHandler (registerHandler st "a/b" "h1" f).2 "a/b" "h2" g).2 =
        (registerHandler st "a/b" "h1" f).2 ∧
      request (registerHandler (registerHandler st "a/b" "h1" f).2 "a/b" "h2" g).2
          "a/b" data senderId tmo now =
        resultOfOutcome
          (f { topic := "a/b", senderId := senderId, data := data, timestamp := now })) := by
  constructor
  · intro st topic handlerId h hh
    have hh' : (st.m_requestHandlers.find? (fun e => e.1 == topic)).isSome = true := hh
    simp [registerHandler, hh']
  · intro st f g data senderId tmo now hh
    have hnone : st.m_requestHandlers.find? (fun e => e.1 == "a/b") = none := by
      have hh' : (st.m_requestHandlers.find? (fun e => e.1 == "a/b")).isSome = false := hh
      cases hfind : st.m_requestHandlers.find? (fun e => e.1 == "a/b") with
      | none => rfl
      | some x => rw [hfind] at hh'; simp at hh'
    have h1 : registerHandler st "a/b" "h1" f =
        (true, { st with m_requestHandlers := st.m_requestHandlers ++
          [("a/b", { topic := "a/b", handlerId := "h1", handler := f })] }) := by
      simp [registerHandler, hnone]
    have hfind1 : (registerHandler st "a/b" "h1" f).2.m_requestHandlers.find?
        (fun e => e.1 == "a/b") =
        some ("a/b", { topic := "a/b", handlerId := "h1", handler := f }) := by
      rw [h1, List.find?_append, hnone]
      simp
    set st1 := (registerHandler st "a/b" "h1" f).2 with hst1
    have key : registerHandler st1 "a/b" "h2" g = (false, st1) := by
      have hsome : (st1.m_requestHandlers.find? (fun e => e.1 == "a/b")).isSome = true := by
        rw [hfind1]; rfl
      simp [registerHandler, hsome]
    refine ⟨by rw [h1], by rw [key], by rw [key], ?_⟩
    rw [key]
    cases hfv : f { topic := "a/b", senderId := senderId, data := data, timestamp := now } with
    | ok v => simp [request, hfind1, hfv, resultOfOutcome]
    | stdExc msg => simp [request, hfind1, hfv, resultOfOutcome]
    | nonStdThrow => simp [request, hfind1, hfv, resultOfOutcome]

/-- **C7 (witness).** The rejection observed on a bus that already has
an `a/b` handler, and the full two-registration scenario from the
empty bus: the second registration fails and `request` still runs the
first handler. -/
theorem C7_no_overwrite_witness :
    registerHandler stReqOk "a/b" "hx" gHandler = (false, stReqOk) ∧
    (registerHandler (registerHandler emptyBus "a/b" "h1" fHandler).2 "a/b" "h2" gHandler).1
      = false ∧
    request (registerHandler (registerHandler emptyBus "a/b" "h1" fHandler).2
        "a/b" "h2" gHandler).2 "a/b" [] "s" 0 0 = RequestResult.value [("who", "f")] := by
  refine ⟨C7_no_overwrite.1 stReqOk "a/b" "hx" gHandler rfl, ?_, ?_⟩
  · exact (C7_no_overwrite.2 emptyBus fHandler gHandler [] "s" 0 0 rfl).2.1
  · exact ((C7_no_overwrite.2 emptyBus fHandler gHandler [] "s" 0 0 rfl).2.2.2).trans rfl

/-- **C8.** Publishing to a topic with zero matching subscriptions
returns `notifiedCount == 0`, invokes nothing, yet still bumps that
exact topic's `eventCount` and `lastEventTime` in the stats table,
while the subscription table, the subscriber index and the
request-handler map are unchanged. -/
theorem C8_zero_match_frame (sortFn : List Subscription → List Subscription)
    (st : EventBusState) (ev : Event) (sync : Bool)
    (h : findMatchingSubscriptions st.m_subscriptions ev.topic = []) :
    (deliverEvent sortFn st ev sync).1.notified = 0 ∧
    (deliverEvent sortFn st ev sync).1.invoked = [] ∧
    (deliverEvent sortFn st ev sync).2.m_subscriptions = st.m_subscriptions ∧
    (deliverEvent sortFn st ev sync).2.m_subscriberIndex = st.m_subscriberIndex ∧
    (deliverEvent sortFn st ev sync).2.m_requestHandlers = st.m_requestHandlers ∧
    statsGet (deliverEvent sortFn st ev sync).2 ev.topic =
      { topic := ev.topic
        eventCount := (statsGet st ev.topic).eventCount + 1
        lastEventTime := ev.timestamp } := by
  refine ⟨by simp [deliverEvent, h], by simp [deliverEvent, h], by simp [deliverEvent, h],
    by simp [deliverEvent, h], by simp [deliverEvent, h], ?_⟩
  simp [deliverEvent, h, statsGet, find?_bumpStats]

/-- **C8 (witness).** The frame property observed for a publish on the
empty bus. -/
theorem C8_zero_match_frame_witness :
    (deliverEvent sortDescStable emptyBus evPub true).1.notified = 0 ∧
    (deliverEvent sortDescStable emptyBus evPub true).1.invoked = [] ∧
    (deliverEvent sortDescStable emptyBus evPub true).2.m_subscriptions =
      emptyBus.m_subscriptions ∧
    (deliverEvent sortDescStable emptyBus evPub true).2.m_subscriberIndex =
      emptyBus.m_subscriberIndex ∧
    (deliverEvent sortDescStable emptyBus evPub true).2.m_requestHandlers =
      emptyBus.m_requestHandlers ∧
    statsGet (deliverEvent sortDescStable emptyBus evPub true).2 evPub.topic =
      { topic := evPub.topic
        eventCount := (statsGet emptyBus evPub.topic).eventCount + 1
        lastEventTime := evPub.timestamp } :=
  C8_zero_match_frame sortDescStable emptyBus evPub true rfl

/-! ## Helper lemmas: keyed erasure -/

/-- Erasing by a key that occurs at most once (the map's keys are
nodup) equals filtering that key out. -/
theorem eraseP_eq_filter_key {α β : Type} [BEq β] [LawfulBEq β] (f : α → β) (i : β)
    (l : List α) (hn : (l.map f).Nodup) :
    l.eraseP (fun x => f x == i) = l.filter (fun x => f x != i) := by
  induction l with
  | nil => rfl
  | cons a rest ih =>
    simp only [List.map_cons, List.nodup_cons] at hn
    rw [List.eraseP_cons, List.filter_cons]
    cases ha : (f a == i) with
    | true =>
      have hai : f a = i := eq_of_beq ha
      have hfa : (f a != i) = false := by simp [bne, ha]
      rw [hfa]
      simp only [cond_true, Bool.false_eq_true, if_false]
      symm
      apply List.filter_eq_self.mpr
      intro x hx
      have hxi : f x ≠ i := by
        intro hfx
        have hfa2 : f x = f a := by rw [hfx, hai]
        exact hn.1 (hfa2 ▸ List.mem_map_of_mem f hx)
      simp [bne, hxi]
    | false =>
      have hfa : (f a != i) = true := by simp [bne, ha]
      rw [hfa]
      simp only [cond_false, if_true]
      rw [ih hn.2]

/-- Erasing each key of `ids` in turn from a nodup-keyed list equals
filtering all of them out at once. -/
theorem foldl_eraseP_eq {α β : Type} [BEq β] [LawfulBEq β] (f : α → β) (ids : List β)
    (l : List α) (hn : (l.map f).Nodup) :
    ids.foldl (fun acc j => acc.eraseP (fun x => f x == j)) l =
      l.filter (fun x => !ids.contains (f x)) := by
  induction ids generalizing l with
  | nil => simp
  | cons j js ih =>
    rw [List.foldl_cons, eraseP_eq_filter_key f j l hn]
    have hn2 : ((l.filter (fun x => f x != j)).map f).Nodup :=
      ((List.filter_sublist l).map f).nodup hn
    rw [ih _ hn2, List.filter_filter]
    apply List.filter_congr
    intro x _
    cases hj : (f x == j) <;> simp [List.contains_cons, hj, bne]

/-! ## Helper lemmas: the subscriber index -/

theorem indexAppend_cons_pos {k : String} {v : List Nat} {rest : List (String × List Nat)}
    {sid : String} {i : Nat} (h : k = sid) :
    indexAppend ((k, v) :: rest) sid i = (k, v ++ [i]) :: rest := by
  simp [indexAppend, h]

theorem indexAppend_cons_neg {k : String} {v : List Nat} {rest : List (String × List Nat)}
    {sid : String} {i : Nat} (h : ¬k = sid) :
    indexAppend ((k, v) :: rest) sid i = (k, v) :: indexAppend rest sid i := by
  simp [indexAppend, h]

theorem indexRemove_cons_pos_nil {k : String} {v : List Nat} {rest : List (String × List Nat)}
    {sid : String} {i : Nat} (h : k = sid) (hv : (v.filter (fun j => j ≠ i)).isEmpty = true) :
    indexRemove ((k, v) :: rest) sid i = rest := by
  subst h
  simp only [indexRemove]
  rw [if_pos trivial, if_pos hv]

theorem indexRemove_cons_pos_cons {k : String} {v : List Nat} {rest : List (String × List Nat)}
    {sid : String} {i : Nat} (h : k = sid) (hv : (v.filter (fun j => j ≠ i)).isEmpty = false) :
    indexRemove ((k, v) :: rest) sid i = (k, v.filter (fun j => j ≠ i)) :: rest := by
  subst h
  simp only [indexRemove]
  rw [if_pos trivial, if_neg (by rw [hv]; exact Bool.false_ne_true)]

theorem indexRemove_cons_neg {k : String} {v : List Nat} {rest : List (String × List Nat)}
    {sid : String} {i : Nat} (h : ¬k = sid) :
    indexRemove ((k, v) :: rest) sid i = (k, v) :: indexRemove rest sid i := by
  simp only [indexRemove]
  rw [if_neg h]

theorem key_mem_indexAppend {idx : List (String × List Nat)} {sid : String} {i : Nat}
    {a : String} (h : a ∈ (indexAppend idx sid i).map Prod.fst) :
    a ∈ idx.map Prod.fst ∨ a = sid := by
  induction idx with
  | nil =>
    simp only [indexAppend, List.map_cons, List.map_nil, List.mem_cons,
      List.not_mem_nil, or_false] at h
    exact Or.inr h
  | cons kv rest ih =>
    obtain ⟨k, v⟩ := kv
    by_cases hk : k = sid
    · rw [indexAppend_cons_pos hk] at h
      simp only [List.map_cons, List.mem_cons] at h ⊢
      exact Or.inl h
    · rw [indexAppend_cons_neg hk] at h
      simp only [List.map_cons, List.mem_cons] at h ⊢
      rcases h with h | h
      · exact Or.inl (Or.inl h)
      · rcases ih h with h2 | h2
        · exact Or.inl (Or.inr h2)
        · exact Or.inr h2

theorem nodupKeys_indexAppend {idx : List (String × List Nat)} {sid : String} {i : Nat}
    (h : (idx.map Prod.fst).Nodup) :
    ((indexAppend idx sid i).map Prod.fst).Nodup := by
  induction idx with
  | nil => simp [indexAppend]
  | cons kv rest ih =>
    obtain ⟨k, v⟩ := kv
    simp only [List.map_cons, List.nodup_cons] at h
    by_cases hk : k = sid
    · rw [indexAppend_cons_pos hk]
      simp only [List.map_cons, List.nodup_cons]
      exact ⟨h.1, h.2⟩
    · rw [indexAppend_cons_neg hk]
      simp only [List.map_cons, List.nodup_cons]
      refine ⟨?_, ih h.2⟩
      intro hmem
      rcases key_mem_indexAppend hmem with h2 | h2
      · exact h.1 h2
      · exact hk h2

theorem mem_indexAppend {idx : List (String × List Nat)} {sid : String} {i : Nat}
    {e : String × List Nat} (he : e ∈ indexAppend idx sid i) :
    e ∈ idx ∨ (∃ v, (sid, v) ∈ idx ∧ e = (sid, v ++ [i])) ∨ e = (sid, [i]) := by
  induction idx with
  | nil =>
    simp only [indexAppend, List.mem_cons, List.not_mem_nil, or_false] at he
    exact Or.inr (Or.inr he)
  | cons kv rest ih =>
    obtain ⟨k, v⟩ := kv
    by_cases hk : k = sid
    · subst hk
      rw [indexAppend_cons_pos rfl] at he
      rcases List.mem_cons.mp he with he | he
      · exact Or.inr (Or.inl ⟨v, List.mem_cons_self _ _, he⟩)
      · exact Or.inl (List.mem_cons_of_mem _ he)
    · rw [indexAppend_cons_neg hk] at he
      rcases List.mem_cons.mp he with he | he
      · exact Or.inl (he ▸ List.mem_cons_self _ _)
      · rcases ih he with h2 | h2 | h2
        · exact Or.inl (List.mem_cons_of_mem _ h2)
        · obtain ⟨w, hw, hew⟩ := h2
          exact Or.inr (Or.inl ⟨w, List.mem_cons_of_mem _ hw, hew⟩)
        · exact Or.inr (Or.inr h2)

theorem indexAppend_preserves {idx : List (String × List Nat)} {sid : String} {i : Nat}
    {e : String × List Nat} (he : e ∈ idx) :
    ∃ e' ∈ indexAppend idx sid i, e'.1 = e.1 ∧ ∀ j ∈ e.2, j ∈ e'.2 := by
  induction idx with
  | nil => cases he
  | cons kv rest ih =>
    obtain ⟨k, v⟩ := kv
    by_cases hk : k = sid
    · rcases List.mem_cons.mp he with rfl | he2
      · refine ⟨(k, v ++ [i]), ?_, rfl, fun j hj => by simp [hj]⟩
        rw [indexAppend_cons_pos hk]
        exact List.mem_cons_self _ _
      · refine ⟨e, ?_, rfl, fun j hj => hj⟩
        rw [indexAppend_cons_pos hk]
        exact List.mem_cons_of_mem _ he2
    · rcases List.mem_cons.mp he with rfl | he2
      · refine ⟨(k, v), ?_, rfl, fun j hj => hj⟩
        rw [indexAppend_cons_neg hk]
        exact List.mem_cons_self _ _
      · obtain ⟨e', he', hkey, hsub⟩ := ih he2
        refine ⟨e', ?_, hkey, hsub⟩
        rw [indexAppend_cons_neg hk]
        exact List.mem_cons_of_mem _ he'

theorem indexAppend_self (idx : List (String × List Nat)) (sid : String) (i : Nat) :
    ∃ e ∈ indexAppend idx sid i, e.1 = sid ∧ i ∈ e.2 := by
  induction idx with
  | nil => exact ⟨(sid, [i]), by simp [indexAppend], rfl, by simp⟩
  | cons kv rest ih =>
    obtain ⟨k, v⟩ := kv
    by_cases hk : k = sid
    · refine ⟨(k, v ++ [i]), ?_, hk, by simp⟩
      rw [indexAppend_cons_pos hk]
      exact List.mem_cons_self _ _
    · obtain ⟨e, he, hkey, hmem⟩ := ih
      refine ⟨e, ?_, hkey, hmem⟩
      rw [indexAppend_cons_neg hk]
      exact List.mem_cons_of_mem _ he

theorem key_mem_indexRemove {idx : List (String × List Nat)} {sid : String} {i : Nat}
    {a : String} (h : a ∈ (indexRemove idx sid i).map Prod.fst) :
    a ∈ idx.map Prod.fst := by
  induction idx with
  | nil => simpa [indexRemove] using h
  | cons kv rest ih =>
    obtain ⟨k, v⟩ := kv
    by_cases hk : k = sid
    · cases hv : (v.filter (fun j => j ≠ i)).isEmpty with
      | true =>
        rw [indexRemove_cons_pos_nil hk hv] at h
        simp only [List.map_cons, List.mem_cons]
        exact Or.inr h
      | false =>
        rw [indexRemove_cons_pos_cons hk hv] at h
        simp only [List.map_cons, List.mem_cons] at h ⊢
        exact h
    · rw [indexRemove_cons_neg hk] at h
      simp only [List.map_cons, List.mem_cons] at h ⊢
      rcases h with h | h
      · exact Or.inl h
      · exact Or.inr (ih h)

theorem nodupKeys_indexRemove {idx : List (String × List Nat)} {sid : String} {i : Nat}
    (h : (idx.map Prod.fst).Nodup) :
    ((indexRemove idx sid i).map Prod.fst).Nodup := by
  induction idx with
  | nil => simp [indexRemove]
  | cons kv rest ih =>
    obtain ⟨k, v⟩ := kv
    simp only [List.map_cons, List.nodup_cons] at h
    by_cases hk : k = sid
    · cases hv : (v.filter (fun j => j ≠ i)).isEmpty with
      | true =>
        rw [indexRemove_cons_pos_nil hk hv]
        exact h.2
      | false =>
        rw [indexRemove_cons_pos_cons hk hv]
        simp only [List.map_cons, List.nodup_cons]
        exact ⟨h.1, h.2⟩
    · rw [indexRemove_cons_neg hk]
      simp only [List.map_cons, List.nodup_cons]
      exact ⟨fun hmem => h.1 (key_mem_indexRemove hmem), ih h.2⟩

theorem mem_indexRemove {idx : List (String × List Nat)} {sid : String} {i : Nat}
    {e : String × List Nat} (hk : (idx.map Prod.fst).Nodup)
    (he : e ∈ indexRemove idx sid i) :
    (e ∈ idx ∧ e.1 ≠ sid) ∨
    (∃ v, (sid, v) ∈ idx ∧ e = (sid, v.filter (fun j => j ≠ i)) ∧ e.2 ≠ []) := by
  induction idx with
  | nil => simp [indexRemove] at he
  | cons kv rest ih =>
    obtain ⟨k, v⟩ := kv
    simp only [List.map_cons, List.nodup_cons] at hk
    by_cases hks : k = sid
    · subst hks
      cases hv : (v.filter (fun j => j ≠ i)).isEmpty with
      | true =>
        rw [indexRemove_cons_pos_nil rfl hv] at he
        have hne : e.1 ≠ k := by
          intro hek
          exact hk.1 (hek ▸ List.mem_map_of_mem Prod.fst he)
        exact Or.inl ⟨List.mem_cons_of_mem _ he, hne⟩
      | false =>
        rw [indexRemove_cons_pos_cons rfl hv] at he
        rcases List.mem_cons.mp he with rfl | he2
        · refine Or.inr ⟨v, List.mem_cons_self _ _, rfl, ?_⟩
          intro hnil
          have hemp : (v.filter (fun j => j ≠ i)).isEmpty = true := by
            rw [show v.filter (fun j => j ≠ i) = [] from hnil]
            rfl
          rw [hemp] at hv
          cases hv
        · have hne : e.1 ≠ k := by
            intro hek
            exact hk.1 (hek ▸ List.mem_map_of_mem Prod.fst he2)
          exact Or.inl ⟨List.mem_cons_of_mem _ he2, hne⟩
    · rw [indexRemove_cons_neg hks] at he
      rcases List.mem_cons.mp he with rfl | he2
      · exact Or.inl ⟨List.mem_cons_self _ _, hks⟩
      · rcases ih hk.2 he2 with h2 | h2
        · exact Or.inl ⟨List.mem_cons_of_mem _ h2.1, h2.2⟩
        · obtain ⟨w, hw, hew, hne⟩ := h2
          exact Or.inr ⟨w, List.mem_cons_of_mem _ hw, hew, hne⟩

theorem mem_indexRemove_of_ne {idx : List (String × List Nat)} {sid : String} {i : Nat}
    {e : String × List Nat} (he : e ∈ idx) (hne : e.1 ≠ sid) :
    e ∈ indexRemove idx sid i := by
  induction idx with
  | nil => cases he
  | cons kv rest ih =>
    obtain ⟨k, v⟩ := kv
    by_cases hk : k = sid
    · rcases List.mem_cons.mp he with rfl | he2
      · exact absurd hk hne
      · cases hv : (v.filter (fun j => j ≠ i)).isEmpty with
        | true =>
          rw [indexRemove_cons_pos_nil hk hv]
          exact he2
        | false =>
          rw [indexRemove_cons_pos_cons hk hv]
          exact List.mem_cons_of_mem _ he2
    · rw [indexRemove_cons_neg hk]
      rcases List.mem_cons.mp he with rfl | he2
      · exact List.mem_cons_self _ _
      · exact List.mem_cons_of_mem _ (ih he2)

theorem mem_indexRemove_self {idx : List (String × List Nat)} {sid : String} {i : Nat}
    {v : List Nat} (hv : (sid, v) ∈ idx) (hk : (idx.map Prod.fst).Nodup)
    (hne : v.filter (fun j => j ≠ i) ≠ []) :
    (sid, v.filter (fun j => j ≠ i)) ∈ indexRemove idx sid i := by
  induction idx with
  | nil => cases hv
  | cons kv rest ih =>
    obtain ⟨k, w⟩ := kv
    simp only [List.map_cons, List.nodup_cons] at hk
    by_cases hks : k = sid
    · subst hks
      rcases List.mem_cons.mp hv with heq | hv2
      · have hw : w = v := (congrArg Prod.snd heq).symm
        have hvne : (v.filter (fun j => j ≠ i)).isEmpty = false := by
          cases hvc : (v.filter (fun j => j ≠ i)).isEmpty with
          | true => exact absurd (List.isEmpty_iff.mp hvc) hne
          | false => rfl
        rw [indexRemove_cons_pos_cons rfl (by rw [hw]; exact hvne), hw]
        exact List.mem_cons_self _ _
      · exact absurd (List.mem_map_of_mem Prod.fst hv2) (by simpa using hk.1)
    · rcases List.mem_cons.mp hv with heq | hv2
      · exact absurd (congrArg Prod.fst heq).symm hks
      · rw [indexRemove_cons_neg hks]
        exact List.mem_cons_of_mem _ (ih hv2 hk.2)

/-! ## Helper lemmas: the table/index invariant -/

theorem WF_emptyBus : WF emptyBus := by
  constructor <;> simp [emptyBus]

theorem WF_subscribe (st : EventBusState) (p sid : String) (h : HandlerModel)
    (o : SubscriptionOptions) (hwf : WF st) : WF (subscribe st p sid h o).2 := by
  simp only [subscribe]
  constructor
  case nodupIds =>
    rw [List.map_append]
    refine List.Nodup.append hwf.nodupIds (by simp) ?_
    intro a ha hb
    obtain ⟨s, hs, rfl⟩ := List.mem_map.mp ha
    have hlt := hwf.fresh s hs
    have : s.id = st.m_nextId := by simpa using hb
    omega
  case nodupKeys => exact nodupKeys_indexAppend hwf.nodupKeys
  case entriesNonempty =>
    intro e he
    rcases mem_indexAppend he with he | ⟨v, _, rfl⟩ | rfl
    · exact hwf.entriesNonempty e he
    · simp
    · simp
  case idxToTab =>
    intro e he j hj
    rcases mem_indexAppend he with he | ⟨v, hv, rfl⟩ | rfl
    · obtain ⟨s, hsmem, hid, hsid⟩ := hwf.idxToTab e he j hj
      exact ⟨s, List.mem_append_left _ hsmem, hid, hsid⟩
    · rcases List.mem_append.mp hj with hj | hj
      · obtain ⟨s, hsmem, hid, hsid⟩ := hwf.idxToTab (sid, v) hv j hj
        exact ⟨s, List.mem_append_left _ hsmem, hid, hsid⟩
      · have hji : j = st.m_nextId := by simpa using hj
        subst hji
        exact ⟨_, List.mem_append_right _ (List.mem_singleton_self _), rfl, rfl⟩
    · have hji : j = st.m_nextId := by simpa using hj
      subst hji
      exact ⟨_, List.mem_append_right _ (List.mem_singleton_self _), rfl, rfl⟩
  case tabToIdx =>
    intro s hs
    rcases List.mem_append.mp hs with hs | hs
    · obtain ⟨e, he, hkey, hmem⟩ := hwf.tabToIdx s hs
      obtain ⟨e', he', hkey', hsub⟩ := @indexAppend_preserves st.m_subscriberIndex sid st.m_nextId e he
      exact ⟨e', he', by rw [hkey', hkey], hsub _ hmem⟩
    · have hss := List.mem_singleton.mp hs
      subst hss
      obtain ⟨e, he, hkey, hmem⟩ := indexAppend_self st.m_subscriberIndex sid st.m_nextId
      exact ⟨e, he, hkey, hmem⟩
  case fresh =>
    intro s hs
    rcases List.mem_append.mp hs with hs | hs
    · have := hwf.fresh s hs
      show s.id < st.m_nextId + 1
      omega
    · have hss := List.mem_singleton.mp hs
      subst hss
      show st.m_nextId < st.m_nextId + 1
      omega

theorem WF_unsubscribe (st : EventBusState) (i : Nat) (hwf : WF st) :
    WF (unsubscribe st i).2 := by
  cases hfind : st.m_subscriptions.find? (fun s => s.id == i) with
  | none =>
    simp only [unsubscribe, hfind]
    exact hwf
  | some s =>
    have hsmem : s ∈ st.m_subscriptions := List.mem_of_find?_eq_some hfind
    have hsid : s.id = i := by simpa using List.find?_some hfind
    have herase : st.m_subscriptions.eraseP (fun x => x.id == i) =
        st.m_subscriptions.filter (fun x => x.id != i) :=
      eraseP_eq_filter_key Subscription.id i _ hwf.nodupIds
    have hstep : (unsubscribe st i).2 =
        { st with
          m_subscriptions := st.m_subscriptions.filter (fun x => x.id != i)
          m_subscriberIndex := indexRemove st.m_subscriberIndex s.subscriberId i } := by
      simp only [unsubscribe, hfind]
      rw [herase]
    rw [hstep]
    constructor
    case nodupIds =>
      exact ((List.filter_sublist st.m_subscriptions).map Subscription.id).nodup hwf.nodupIds
    case nodupKeys => exact nodupKeys_indexRemove hwf.nodupKeys
    case entriesNonempty =>
      intro e he
      rcases mem_indexRemove hwf.nodupKeys he with ⟨heo, _⟩ | ⟨v, _, _, hne⟩
      · exact hwf.entriesNonempty e heo
      · exact hne
    case idxToTab =>
      intro e he j hj
      rcases mem_indexRemove hwf.nodupKeys he with ⟨heo, hene⟩ | ⟨v, hv, rfl, _⟩
      · obtain ⟨s', hs', hid', hsid'⟩ := hwf.idxToTab e heo j hj
        have hs'ne : s'.id ≠ i := by
          intro hsi
          have hss : s' = s :=
            List.inj_on_of_nodup_map hwf.nodupIds hs' hsmem (by rw [hsi, hsid])
          rw [hss] at hsid'
          exact hene hsid'.symm
        refine ⟨s', List.mem_filter.mpr ⟨hs', ?_⟩, hid', hsid'⟩
        simpa [bne] using hs'ne
      · have hj2 := List.mem_filter.mp hj
        have hjne : j ≠ i := by simpa using hj2.2
        obtain ⟨s', hs', hid', hsid'⟩ := hwf.idxToTab (s.subscriberId, v) hv j hj2.1
        have hs'ne : s'.id ≠ i := hid' ▸ hjne
        refine ⟨s', List.mem_filter.mpr ⟨hs', ?_⟩, hid', hsid'⟩
        simpa [bne] using hs'ne
    case tabToIdx =>
      intro s' hs'
      have hs'2 := List.mem_filter.mp hs'
      have hs'ne : s'.id ≠ i := by simpa [bne] using hs'2.2
      obtain ⟨e, he, hkey, hmem⟩ := hwf.tabToIdx s' hs'2.1
      by_cases hkb : e.1 = s.subscriberId
      · have he2 : (s.subscriberId, e.2) ∈ st.m_subscriberIndex := by
          rw [← hkb]
          exact he
        have hin : s'.id ∈ e.2.filter (fun j => j ≠ i) :=
          List.mem_filter.mpr ⟨hmem, by simpa using hs'ne⟩
        have hne2 : e.2.filter (fun j => j ≠ i) ≠ [] := List.ne_nil_of_mem hin
        refine ⟨(s.subscriberId, e.2.filter (fun j => j ≠ i)),
          mem_indexRemove_self he2 hwf.nodupKeys hne2, ?_, hin⟩
        rw [hkb] at hkey
        exact hkey
      · exact ⟨e, mem_indexRemove_of_ne he hkb, hkey, hmem⟩
    case fresh =>
      intro s' hs'
      exact hwf.fresh s' (List.mem_filter.mp hs').1

theorem WF_unsubscribeAll (st : EventBusState) (sid : String) (hwf : WF st) :
    WF (unsubscribeAll st sid).2 := by
  cases hfind : st.m_subscriberIndex.find? (fun e => e.1 == sid) with
  | none =>
    have hnokey : ∀ e ∈ st.m_subscriberIndex, ¬(e.1 == sid) = true :=
      List.find?_eq_none.mp hfind
    have heq : st.m_subscriberIndex.eraseP (fun e => e.1 == sid) = st.m_subscriberIndex :=
      List.eraseP_of_forall_not hnokey
    have hstep : (unsubscribeAll st sid).2 = st := by
      simp only [unsubscribeAll, hfind, Option.map_none', Option.getD_none, List.foldl_nil, heq]
    rw [hstep]
    exact hwf
  | some e0 =>
    obtain ⟨k, v⟩ := e0
    have hkmem : (k, v) ∈ st.m_subscriberIndex := List.mem_of_find?_eq_some hfind
    have hk : k = sid := by simpa using List.find?_some hfind
    subst hk
    have hfoldl : v.foldl (fun acc i => acc.eraseP (fun s => s.id == i)) st.m_subscriptions =
        st.m_subscriptions.filter (fun s => !v.contains s.id) :=
      foldl_eraseP_eq Subscription.id v _ hwf.nodupIds
    have hidx : st.m_subscriberIndex.eraseP (fun e => e.1 == k) =
        st.m_subscriberIndex.filter (fun e => e.1 != k) :=
      eraseP_eq_filter_key Prod.fst k _ hwf.nodupKeys
    have hstep : (unsubscribeAll st k).2 =
        { st with
          m_subscriberIndex := st.m_subscriberIndex.filter (fun e => e.1 != k)
          m_subscriptions := st.m_subscriptions.filter (fun s => !v.contains s.id) } := by
      simp only [unsubscribeAll, hfind, Option.map_some', Option.getD_some]
      rw [hfoldl, hidx]
    rw [hstep]
    constructor
    case nodupIds =>
      exact ((List.filter_sublist st.m_subscriptions).map Subscription.id).nodup hwf.nodupIds
    case nodupKeys =>
      exact ((List.filter_sublist st.m_subscriberIndex).map Prod.fst).nodup hwf.nodupKeys
    case entriesNonempty =>
      intro e he
      exact hwf.entriesNonempty e (List.mem_filter.mp he).1
    case idxToTab =>
      intro e he j hj
      have he2 := List.mem_filter.mp he
      have hene : e.1 ≠ k := by simpa [bne] using he2.2
      obtain ⟨s', hs', hid', hsid'⟩ := hwf.idxToTab e he2.1 j hj
      have hnotin : s'.id ∉ v := by
        intro hin
        obtain ⟨s'', hs'', hid'', hsid''⟩ := hwf.idxToTab (k, v) hkmem s'.id hin
        have hss : s'' = s' := List.inj_on_of_nodup_map hwf.nodupIds hs'' hs' hid''
        rw [hss] at hsid''
        exact hene (hsid' ▸ hsid'' ▸ rfl)
      refine ⟨s', List.mem_filter.mpr ⟨hs', ?_⟩, hid', hsid'⟩
      simpa using hnotin
    case tabToIdx =>
      intro s' hs'
      have hs'2 := List.mem_filter.mp hs'
      have hnotin : s'.id ∉ v := by
        intro hin
        rw [show (v.contains s'.id) = true by simpa using hin] at hs'2
        simp at hs'2
      obtain ⟨e, he, hkey, hmem⟩ := hwf.tabToIdx s' hs'2.1
      have hene : e.1 ≠ k := by
        intro hek
        have he2 : e = (k, v) := by
          apply List.inj_on_of_nodup_map hwf.nodupKeys he hkmem
          simpa using hek
        rw [he2] at hmem
        exact hnotin hmem
      refine ⟨e, List.mem_filter.mpr ⟨he, by simpa [bne] using hene⟩, hkey, hmem⟩
    case fresh =>
      intro s' hs'
      exact hwf.fresh s' (List.mem_filter.mp hs').1

theorem WF_applyOp (st : EventBusState) (op : BusOp) (hwf : WF st) : WF (applyOp st op) := by
  cases op with
  | sub p sid h o => exact WF_subscribe st p sid h o hwf
  | unsub i => exact WF_unsubscribe st i hwf
  | unsubAll sid => exact WF_unsubscribeAll st sid hwf

theorem WF_foldl (ops : List BusOp) : ∀ st, WF st → WF (ops.foldl applyOp st) := by
  induction ops with
  | nil => exact fun st h => h
  | cons op rest ih => exact fun st h => ih _ (WF_applyOp st op h)

theorem WF_consistent {st : EventBusState} (hwf : WF st) : Consistent st := by
  refine ⟨?_, hwf.tabToIdx, hwf.entriesNonempty⟩
  intro e he j hj
  obtain ⟨s, hs, hid, _⟩ := hwf.idxToTab e he j hj
  exact ⟨s, hs, hid⟩

/-- **C9.** Starting from the empty bus, every sequence of `subscribe`,
`unsubscribe` and `unsubscribeAll` operations keeps the subscriber
index and the subscription table consistent: every id in the index is
a live subscription, every live subscription is listed in the index
under its `subscriberId`, and no subscriber maps to an empty id list
(an emptied list is pruned immediately). -/
theorem C9_index_table_consistency (ops : List BusOp) : Consistent (applyOps ops) :=
  WF_consistent (WF_foldl ops emptyBus WF_emptyBus)

/-- **C10.** The two public read queries can never disagree: for every
bus state and topic, `subscriberCount(topic)` equals
`topicStats(topic).subscriberCount` — both count exactly the live
subscriptions whose stored compiled pattern matches the topic. -/
theorem C10_subscriberCount_agrees (st : EventBusState) (topic : String) :
    subscriberCount st topic = (topicStats st topic).subscriberCount := by
  unfold subscriberCount topicStats
  cases h : st.m_topicStats.find? (fun e => e.1 == topic) with
  | none => simp [h]
  | some e =>
    obtain ⟨k, d⟩ := e
    simp [h]

end Mpf
